import Mathlib

/-!
# Verification of the legate.core resource-management runtime

Shallow embedding of `src/legate/core/runtime.py` (field pooling with
consensus reclamation, the launch-shape planner, the external-attachment
registry, and the runtime teardown guards), together with proofs of the
behavioural properties claimed in the specification.

Modelling conventions:
* Python machine integers in this file are all unbounded non-negative
  counters, ids and sizes, so they are modelled by `Nat`.
* A `(region, field_id)` pair is modelled by the pair of the region tree id
  and the field id (`Nat × Nat`), which is exactly what the consensus-match
  wire format encodes, or by a single abstract handle (`Nat`) where only
  identity of the pair matters.
* Fallible code (Python `assert` failures, `KeyError`, raised exceptions,
  division by zero, non-terminating loops) is modelled with `Option`:
  `none` means the Python code raises or diverges.
* The memoisation table `_launch_spaces` only ever stores the value the
  pure computation produces for a shape and replays it verbatim, so the
  planner is embedded as the pure (cache-miss) computation.
-/

namespace LegateCore

/-! ## FieldManager.__init__: the match-frequency computation

`FieldManager.__init__` computes `volume = reduce(mul, shape)` (which raises
on an empty shape), `size = volume * dtype.size`, and then derives the
match frequency, dividing by `max_field_reuse_size` (raising on zero) and
asserting `ratio >= 1`. -/

/-- Size in bytes of one field of the pool: `reduce(lambda x, y: x * y,
shape) * dtype.size`. Python's `reduce` with no initial element raises on an
empty shape. -/
def poolSize (shape : List Nat) (dtypeSize : Nat) : Option Nat :=
  match shape with
  | [] => none
  | x :: xs => some (xs.foldl (· * ·) x * dtypeSize)

/-- The match-frequency computation of `FieldManager.__init__`
(runtime.py lines 195-209). `maxReuseSize` is
`runtime.max_field_reuse_size` and `maxReuseFreq` is
`runtime.max_field_reuse_frequency`. -/
def computeMatchFrequency (shape : List Nat) (dtypeSize maxReuseSize maxReuseFreq : Nat) :
    Option Nat :=
  match poolSize shape dtypeSize with
  | none => none
  | some size =>
    if maxReuseSize < size then
      if maxReuseSize = 0 then none
      else
        let rq := (size + maxReuseSize - 1) / maxReuseSize
        if rq < 1 then none
        else some ((maxReuseFreq + rq - 1) / rq)
    else some maxReuseFreq

/-- Characterisation of `(a + b - 1) / b` as the ceiling of `a / b`:
it is the unique `c` with `a ≤ c * b < a + b`, and it is positive. -/
theorem ceil_div_char (a b : Nat) (ha : 1 ≤ a) (hb : 1 ≤ b) :
    a ≤ ((a + b - 1) / b) * b ∧ ((a + b - 1) / b) * b < a + b ∧ 1 ≤ (a + b - 1) / b := by
  have h1 : b * ((a + b - 1) / b) + (a + b - 1) % b = a + b - 1 :=
    Nat.div_add_mod _ _
  have h2 : (a + b - 1) % b < b := Nat.mod_lt _ (by omega)
  have hc : ((a + b - 1) / b) * b = b * ((a + b - 1) / b) := Nat.mul_comm _ _
  rcases Nat.eq_zero_or_pos ((a + b - 1) / b) with hz | hpos
  · rw [hz] at h1; omega
  · refine ⟨?_, ?_, hpos⟩ <;> rw [hc] <;> omega

/-- Any `c` with `a ≤ c * b < a + b` equals `(a + b - 1) / b` (with `b ≥ 1`):
the characterisation used in `ceil_div_char` pins down a unique value. -/
theorem ceil_div_unique (a b c : Nat) (hb : 1 ≤ b)
    (h1 : a ≤ c * b) (h2 : c * b < a + b) : c = (a + b - 1) / b := by
  have h3 : c * b ≤ a + b - 1 := by omega
  have h4 : a + b - 1 < (c + 1) * b := by
    have : (c + 1) * b = c * b + b := by ring
    omega
  have hle : c ≤ (a + b - 1) / b := (Nat.le_div_iff_mul_le hb).2 h3
  have hlt : (a + b - 1) / b < c + 1 :=
    Nat.div_lt_of_lt_mul (by rw [Nat.mul_comm]; omega)
  omega

/-! ## PartitionManager.use_complete_tiling -/

/-- Modelled from the spec: the `Shape` class (not part of the sources here)
provides element-wise floor division (`shape // tile_shape`) and `volume()`
as the product of extents; the number of tiles of the heuristic is the
volume of the element-wise quotient. -/
def numTiles (shape tileShape : List Nat) : Nat :=
  (List.zipWith (· / ·) shape tileShape).prod

/-- `PartitionManager.use_complete_tiling` (runtime.py lines 728-733):
`not (num_tiles > 256 and num_tiles > 16 * self._num_pieces)`. -/
def useCompleteTiling (numPieces : Nat) (shape tileShape : List Nat) : Bool :=
  !(decide (256 < numTiles shape tileShape) &&
    decide (16 * numPieces < numTiles shape tileShape))

/-! ## Runtime.free_field after Runtime.destroy (teardown guards) -/

/-- The two free lists of a `FieldManager`; `FieldManager.destroy` sets both
to Python `None`, modelled as `none`. -/
structure FMLists where
  free : Option (List (Nat × Nat))
  freed : Option (List (Nat × Nat))
  deriving DecidableEq

/-- `FieldManager.free_field` (runtime.py lines 304-310): append to the
ordered or unordered list, but only when that list has not been cleared by
`FieldManager.destroy`. -/
def fmListsFreeField (fm : FMLists) (rf : Nat × Nat) (ordered : Bool) : FMLists :=
  if ordered then
    match fm.free with
    | some l => { fm with free := some (l ++ [rf]) }
    | none => fm
  else
    match fm.freed with
    | some l => { fm with freed := some (l ++ [rf]) }
    | none => fm

/-- The slice of `Runtime` state that `free_field` touches: the `destroyed`
flag and the `field_managers` dict (set to Python `None` by `destroy`).
Field-manager keys `(shape, dtype)` are abstracted to `Nat`. -/
structure RtState where
  destroyed : Bool
  fieldManagers : Option (List (Nat × FMLists))
  deriving DecidableEq

/-- Dict lookup in an association list (Python `dict` access). -/
def lookupFM : List (Nat × FMLists) → Nat → Option FMLists
  | [], _ => none
  | kv :: rest, k => if kv.1 = k then some kv.2 else lookupFM rest k

/-- Dict update in an association list. -/
def updateFM : List (Nat × FMLists) → Nat → FMLists → List (Nat × FMLists)
  | [], _, _ => []
  | kv :: rest, k, v => if kv.1 = k then (k, v) :: rest else kv :: updateFM rest k v

/-- `Runtime.free_field` (runtime.py lines 961-969): return early when
destroyed; otherwise look the manager up by key (`KeyError`, i.e. `none`,
when missing) and append to its unordered list. -/
def runtimeFreeField (rt : RtState) (key : Nat) (rf : Nat × Nat) : Option RtState :=
  if rt.destroyed then some rt
  else
    match rt.fieldManagers with
    | none => some rt
    | some ms =>
      match lookupFM ms key with
      | none => none
      | some fm =>
        some { rt with
          fieldManagers := some (updateFM ms key (fmListsFreeField fm rf false)) }

/-- `Runtime.destroy` (runtime.py lines 852-872) as it affects the state
read by `free_field`: `field_managers` is set to `None` and then
`destroyed` is set to `True`. -/
def runtimeDestroy (_rt : RtState) : RtState :=
  { destroyed := true, fieldManagers := none }

/-! ## Claim theorems (first group) -/

/-- C6: for a pool whose per-field byte footprint `s` (shape volume times
element size) exceeds `max_field_reuse_size` by the factor
`R = ceil(s / max_field_reuse_size)`, the effective match frequency `q`
satisfies the ceiling characterisation `base ≤ q * R < base + R` (i.e.
`q = ceil(base / R)`) and is at least 1; footprints with `s ≤
max_field_reuse_size` get exactly the base frequency. -/
theorem matchFrequency_scales_with_footprint
    (shape : List Nat) (dtypeSize maxReuseSize maxReuseFreq s q : Nat)
    (hms : 1 ≤ maxReuseSize) (hbf : 1 ≤ maxReuseFreq)
    (hs : poolSize shape dtypeSize = some s)
    (hq : computeMatchFrequency shape dtypeSize maxReuseSize maxReuseFreq = some q) :
    (s ≤ maxReuseSize → q = maxReuseFreq) ∧
    (maxReuseSize < s → 1 ≤ q ∧
      ∀ R, s ≤ R * maxReuseSize → R * maxReuseSize < s + maxReuseSize →
        maxReuseFreq ≤ q * R ∧ q * R < maxReuseFreq + R) := by
  unfold computeMatchFrequency at hq
  rw [hs] at hq
  simp only at hq
  by_cases hlt : maxReuseSize < s
  · constructor
    · intro hle; omega
    · intro _
      rw [if_pos hlt] at hq
      rw [if_neg (by omega : ¬ maxReuseSize = 0)] at hq
      have hs1 : 1 ≤ s := by omega
      obtain ⟨hr1, hr2, hr3⟩ := ceil_div_char s maxReuseSize hs1 hms
      rw [if_neg (by omega : ¬ (s + maxReuseSize - 1) / maxReuseSize < 1)] at hq
      rw [Option.some_inj] at hq
      subst hq
      obtain ⟨hq1, hq2, hq3⟩ :=
        ceil_div_char maxReuseFreq ((s + maxReuseSize - 1) / maxReuseSize) hbf hr3
      refine ⟨hq3, ?_⟩
      intro R hR1 hR2
      have hRe : R = (s + maxReuseSize - 1) / maxReuseSize :=
        ceil_div_unique s maxReuseSize R hms hR1 hR2
      subst hRe
      constructor <;> omega
  · rw [if_neg hlt] at hq
    rw [Option.some_inj] at hq
    subst hq
    exact ⟨fun _ => rfl, fun h => absurd h hlt⟩

/-- Witness for C6 at shape `[4]`, element size 100, reuse size 256, base
frequency 32: the footprint is 400, the ratio R is 2, and the effective
frequency is 16 = ceil(32 / 2). -/
theorem matchFrequency_scales_with_footprint_witness :
    computeMatchFrequency [4] 100 256 32 = some 16 ∧
    (1 ≤ 16 ∧ (32 ≤ 16 * 2 ∧ 16 * 2 < 32 + 2)) := by
  have h := matchFrequency_scales_with_footprint [4] 100 256 32 400 16
    (by decide) (by decide) (by decide) (by decide)
  refine ⟨by decide, ?_⟩
  obtain ⟨h1, h2⟩ := (h.2 (by decide)).2 2 (by decide) (by decide)
  exact ⟨(h.2 (by decide)).1, h1, h2⟩

/-- C8: `use_complete_tiling` returns `false` exactly when the tiling
produces more than 256 tiles and simultaneously more than 16 times the
shard count; in particular it is `false` for a tiling with 300 tiles at
shard count 4 and `true` for a tiling with 16 tiles at shard count 4. -/
theorem useCompleteTiling_char :
    (∀ numPieces shape tileShape,
      useCompleteTiling numPieces shape tileShape = false ↔
        (256 < numTiles shape tileShape ∧
         16 * numPieces < numTiles shape tileShape)) ∧
    useCompleteTiling 4 [300] [1] = false ∧
    useCompleteTiling 4 [16] [1] = true := by
  refine ⟨fun numPieces shape tileShape => ?_, by decide, by decide⟩
  unfold useCompleteTiling
  by_cases h1 : 256 < numTiles shape tileShape <;>
    by_cases h2 : 16 * numPieces < numTiles shape tileShape <;>
    simp [h1, h2]

/-- C10: after `Runtime.destroy()` has completed, `Runtime.free_field`
never raises and changes no state (the `destroyed` guard returns early),
and a `FieldManager` whose lists have been cleared likewise drops the
field. -/
theorem freeField_after_destroy_noop :
    (∀ rt key rf, runtimeFreeField (runtimeDestroy rt) key rf = some (runtimeDestroy rt)) ∧
    (∀ rf ordered, fmListsFreeField ⟨none, none⟩ rf ordered = ⟨none, none⟩) := by
  constructor
  · intro rt key rf
    rfl
  · intro rf ordered
    unfold fmListsFreeField
    cases ordered <;> rfl

/-! ## Attachment and AttachmentManager

`Attachment` (runtime.py lines 313-339) carries the buffer key
`(ptr, extent)`, the inclusive end address, a reference count, and the
bound `(region, field)` pair. Note that the source's `remove_reference`
executes `self.count += 1` (line 335). The registry
`AttachmentManager._attachments` is a Python dict keyed by
`(base address, byte count)`; dicts preserve insertion order, so it is
modelled as an association list. Regions and fields are abstract ids. -/

structure Attachment where
  ptr : Nat
  extent : Nat
  endAddr : Nat
  count : Nat
  region : Nat
  field : Nat
  deriving DecidableEq

/-- `Attachment.__init__`: `self.end = ptr + extent - 1`, `self.count = 1`. -/
def mkAttachment (ptr extent region field : Nat) : Attachment :=
  ⟨ptr, extent, ptr + extent - 1, 1, region, field⟩

/-- `Attachment.overlaps`: `not (self.end < other.ptr or other.end < self.ptr)`. -/
def Attachment.overlapsB (a b : Attachment) : Bool :=
  !(decide (a.endAddr < b.ptr) || decide (b.endAddr < a.ptr))

/-- `Attachment.equals`: pointer and extent match (the de-duplication key). -/
def Attachment.equalsB (a b : Attachment) : Bool :=
  decide (a.ptr = b.ptr) && decide (a.extent = b.extent)

/-- `Attachment.add_reference`: `self.count += 1`. -/
def Attachment.addReference (a : Attachment) : Attachment :=
  { a with count := a.count + 1 }

/-- `Attachment.remove_reference` (runtime.py lines 333-335): after
`assert self.count > 0` (failure modelled as `none`) the source executes
`self.count += 1`. -/
def Attachment.removeReference (a : Attachment) : Option Attachment :=
  if a.count = 0 then none
  else some { a with count := a.count + 1 }

/-- `Attachment.collectible`: `self.count == 0`. -/
def Attachment.collectible (a : Attachment) : Bool :=
  decide (a.count = 0)

/-- The attachment registry: insertion-ordered `dict` keyed by
`(base address, byte count)`. -/
abbrev Registry := List ((Nat × Nat) × Attachment)

/-- Dict lookup by key. -/
def lookupAtt : Registry → Nat × Nat → Option Attachment
  | [], _ => none
  | kv :: rest, k => if kv.1 = k then some kv.2 else lookupAtt rest k

/-- Dict update of an existing key. -/
def updateAtt : Registry → Nat × Nat → Attachment → Registry
  | [], _, _ => []
  | kv :: rest, k, v => if kv.1 = k then (k, v) :: rest else kv :: updateAtt rest k v

/-- Dict deletion (`del self._attachments[key]`). -/
def eraseAtt : Registry → Nat × Nat → Registry
  | [], _ => []
  | kv :: rest, k => if kv.1 = k then rest else kv :: eraseAtt rest k

/-- Everything one call to `AttachmentManager.attach_array` produces:
the registry afterwards, the `(region, field)` backing the returned store
(`none` when the call raises), the raised message if any, and whether the
call invoked `runtime.allocate_field` / `attach_numpy_array` (these two
happen together, before the alias scan, on the fresh-key path). -/
structure AttachOutcome where
  registry : Registry
  result : Option (Nat × Nat)
  error : Option String
  fieldAllocated : Bool
  bufferBound : Bool
  deriving DecidableEq

/-- The message of the aliasing error raised by `attach_array`. -/
def aliasErrorMsg : String := "Illegal aliased attachments not supported by Legate"

/-- `AttachmentManager.attach_array` (runtime.py lines 378-407). On a fresh
key it allocates a field and binds the numpy buffer to it, then scans the
existing attachments for an overlap: an overlapping-but-unequal attachment
raises the aliasing error (an overlapping equal one would fail the
`assert not other.equals(attachment)`), otherwise the new entry is
recorded. On a known key it only bumps the reference count and returns a
view over the recorded `(region, field)`. `freshRF` is the
`(region, field)` pair `runtime.allocate_field` would produce. -/
def attachArray (reg : Registry) (ptr nbytes : Nat) (freshRF : Nat × Nat) :
    AttachOutcome :=
  let key := (ptr, nbytes)
  match lookupAtt reg key with
  | none =>
    let att := mkAttachment ptr nbytes freshRF.1 freshRF.2
    match reg.find? (fun kv => kv.2.overlapsB att) with
    | some kv =>
      if kv.2.equalsB att then
        ⟨reg, none, some "AssertionError", true, true⟩
      else
        ⟨reg, none, some aliasErrorMsg, true, true⟩
    | none => ⟨reg ++ [(key, att)], some freshRF, none, true, true⟩
  | some att =>
    let att' := att.addReference
    ⟨updateAtt reg key att', some (att.region, att.field), none, false, false⟩

/-- `AttachmentManager.remove_attachment` (runtime.py lines 409-416):
`none` models the `RuntimeError` on an unknown key and the assertion in
`remove_reference`; the entry is deleted only when `collectible`. -/
def removeAttachment (reg : Registry) (ptr nbytes : Nat) : Option Registry :=
  let key := (ptr, nbytes)
  match lookupAtt reg key with
  | none => none
  | some att =>
    match att.removeReference with
    | none => none
    | some att' =>
      if att'.collectible then some (eraseAtt reg key)
      else some (updateAtt reg key att')

/-- If a key is absent from the registry, no entry carries it. -/
theorem lookupAtt_none_not_mem (reg : Registry) (k : Nat × Nat)
    (h : lookupAtt reg k = none) : ∀ kv ∈ reg, kv.1 ≠ k := by
  induction reg with
  | nil => intro kv hkv; cases hkv
  | cons hd tl ih =>
    intro kv hkv
    unfold lookupAtt at h
    by_cases hhd : hd.1 = k
    · rw [if_pos hhd] at h; cases h
    · rw [if_neg hhd] at h
      cases hkv with
      | head => exact hhd
      | tail _ htl => exact ih h kv htl

/-! ## Claim theorems: attachment registry -/

/-- C2 (code bug): starting from an empty registry, attaching the buffer
key `(100, 8)` twice yields a single attachment with reference count 2 and
returns views sharing the recorded `(region, field)` — but calling
`remove_attachment` once per attach (twice total) leaves the entry
registered with count 4, because `Attachment.remove_reference` increments
the count (`self.count += 1`) instead of decrementing it, so the count
never returns to zero and the entry is never deleted. -/
theorem attachment_refcount_never_drops :
    (attachArray [] 100 8 (0, 0)).error = none ∧
    ((attachArray (attachArray [] 100 8 (0, 0)).registry 100 8 (5, 5)).result
      = some (0, 0) ∧
     lookupAtt (attachArray (attachArray [] 100 8 (0, 0)).registry 100 8 (5, 5)).registry
        (100, 8) = some ⟨100, 8, 107, 2, 0, 0⟩) ∧
    (removeAttachment (attachArray (attachArray [] 100 8 (0, 0)).registry
        100 8 (5, 5)).registry 100 8
      = some [((100, 8), ⟨100, 8, 107, 3, 0, 0⟩)]) ∧
    (removeAttachment [((100, 8), ⟨100, 8, 107, 3, 0, 0⟩)] 100 8
      = some [((100, 8), ⟨100, 8, 107, 4, 0, 0⟩)]) := by
  refine ⟨rfl, ⟨rfl, rfl⟩, rfl, rfl⟩

/-- C3 counterexample: with a live attachment at `(100, 8)` bound to
`(0, 0)`, attaching the overlapping-but-unequal range `(104, 8)` raises
the aliasing error, yet the failed call has already allocated a field and
bound the buffer to it before the alias scan — refuting the claim that no
field is allocated or bound by the failed call. -/
theorem attachArray_alias_commits_field :
    (attachArray [((100, 8), mkAttachment 100 8 0 0)] 104 8 (1, 1)).error
      = some aliasErrorMsg ∧
    (attachArray [((100, 8), mkAttachment 100 8 0 0)] 104 8 (1, 1)).fieldAllocated
      = true ∧
    (attachArray [((100, 8), mkAttachment 100 8 0 0)] 104 8 (1, 1)).bufferBound
      = true := by
  refine ⟨rfl, rfl, rfl⟩

/-- C3 (amended): for every `attach_array` call on a key not yet
registered whose range overlaps a live attachment (the registry being
well-keyed, so the overlapping attachment cannot be key-equal), the call
raises the aliasing error and changes no registry state — no entry is
added and nothing is returned — but the failed call has already allocated
a fresh field and bound the buffer to it before the alias scan. -/
theorem attachArray_alias_error (reg : Registry) (ptr nbytes r f : Nat)
    (hwf : ∀ kv ∈ reg, kv.1 = (kv.2.ptr, kv.2.extent))
    (hkey : lookupAtt reg (ptr, nbytes) = none)
    (hov : ∃ kv ∈ reg, kv.2.overlapsB (mkAttachment ptr nbytes r f) = true) :
    (attachArray reg ptr nbytes (r, f)).error = some aliasErrorMsg ∧
    (attachArray reg ptr nbytes (r, f)).registry = reg ∧
    (attachArray reg ptr nbytes (r, f)).result = none ∧
    (attachArray reg ptr nbytes (r, f)).fieldAllocated = true ∧
    (attachArray reg ptr nbytes (r, f)).bufferBound = true := by
  have hsome : (reg.find? (fun kv => kv.2.overlapsB (mkAttachment ptr nbytes r f))).isSome := by
    rw [List.find?_isSome]
    obtain ⟨kv, hmem, hp⟩ := hov
    exact ⟨kv, hmem, hp⟩
  obtain ⟨kv, hfind⟩ := Option.isSome_iff_exists.1 hsome
  have hmem : kv ∈ reg := List.mem_of_find?_eq_some hfind
  have hneq : kv.2.equalsB (mkAttachment ptr nbytes r f) = false := by
    by_contra hcon
    have heq : kv.2.equalsB (mkAttachment ptr nbytes r f) = true := by
      cases h : kv.2.equalsB (mkAttachment ptr nbytes r f)
      · exact absurd h hcon
      · rfl
    unfold Attachment.equalsB at heq
    rw [Bool.and_eq_true, decide_eq_true_eq, decide_eq_true_eq] at heq
    have hk := hwf kv hmem
    have : kv.1 = (ptr, nbytes) := by
      rw [hk, heq.1, heq.2]; rfl
    exact lookupAtt_none_not_mem reg (ptr, nbytes) hkey kv hmem this
  simp only [attachArray, hkey, hfind, hneq]
  simp

/-- Witness for the amended C3 theorem at a concrete registry: one live
attachment `(100, 8)` and an overlapping-but-unequal attach at `(104, 8)`. -/
theorem attachArray_alias_error_witness :
    (attachArray [((100, 8), mkAttachment 100 8 0 0)] 104 8 (1, 1)).error
        = some aliasErrorMsg ∧
    (attachArray [((100, 8), mkAttachment 100 8 0 0)] 104 8 (1, 1)).registry
        = [((100, 8), mkAttachment 100 8 0 0)] ∧
    (attachArray [((100, 8), mkAttachment 100 8 0 0)] 104 8 (1, 1)).result = none ∧
    (attachArray [((100, 8), mkAttachment 100 8 0 0)] 104 8 (1, 1)).fieldAllocated
        = true ∧
    (attachArray [((100, 8), mkAttachment 100 8 0 0)] 104 8 (1, 1)).bufferBound
        = true :=
  attachArray_alias_error [((100, 8), mkAttachment 100 8 0 0)] 104 8 1 1
    (by intro kv hkv; simp at hkv; rw [hkv]; rfl)
    (by rfl)
    ⟨((100, 8), mkAttachment 100 8 0 0), by simp, by rfl⟩

/-! ## FieldMatch.update_free_fields

`FieldMatch` (runtime.py lines 85-160) submits the manager's freed fields
to a collective consensus match; the wire format encodes each field as the
`(tree_id, field_id)` pair of its region, so a field is modelled as that
pair (distinct top regions have distinct tree ids). `update_free_fields`
decodes the agreed output list and redistributes the submitted fields.
The `output : List α` argument is the decoded agreed subset: the
`num_fields` prefix of the output buffer. -/

/-- The two free lists of a live `FieldManager`: `free_fields` (the
ordered deque) and `freed_fields` (the unordered list). -/
structure PoolState (α : Type) where
  free : List α
  freed : List α
  deriving DecidableEq

/-- `FieldManager.free_field` on a live manager: append to the ordered or
unordered list. -/
def poolFreeField {α : Type} (st : PoolState α) (f : α) (ordered : Bool) : PoolState α :=
  if ordered then { st with free := st.free ++ [f] }
  else { st with freed := st.freed ++ [f] }

/-- The inner search of `update_free_fields`: the first index of the
output buffer holding this field (`for idx in range(num_fields): ...
break`). -/
def firstIdx {α : Type} [DecidableEq α] : List α → α → Option Nat
  | [], _ => none
  | x :: xs, v => if x = v then some 0 else (firstIdx xs v).map (· + 1)

/-- `ordered_fields[idx] = (region, field_id)` guarded by
`assert ordered_fields[idx] is None`: `none` when the slot is already
taken (or out of range). -/
def setSlot {α : Type} : List (Option α) → Nat → α → Option (List (Option α))
  | [], _, _ => none
  | s :: rest, 0, v =>
    match s with
    | none => some (some v :: rest)
    | some _ => none
  | s :: rest, n + 1, v => (setSlot rest n v).map (s :: ·)

/-- The outer loop of `update_free_fields`: for each submitted field, find
its slot in the output; fields not found are handed to
`manager.free_field(..., ordered=False)` as the loop runs (`pend`
accumulates them in submission order). -/
def fillLoop {α : Type} [DecidableEq α] (output : List α) :
    List α → List (Option α) → List α → Option (List (Option α) × List α)
  | [], slots, pend => some (slots, pend)
  | f :: fs, slots, pend =>
    match firstIdx output f with
    | some idx =>
      match setSlot slots idx f with
      | none => none
      | some slots' => fillLoop output fs slots' pend
    | none => fillLoop output fs slots (pend ++ [f])

/-- The final `for region, field_id in ordered_fields` loop unpacks every
slot; a slot still holding Python `None` raises, modelled as `none`. -/
def liftSlots {α : Type} : List (Option α) → Option (List α)
  | [] => some []
  | none :: _ => none
  | some v :: rest => (liftSlots rest).map (v :: ·)

/-- `FieldMatch.update_free_fields` (runtime.py lines 121-160) acting on
the manager's pool lists. `fields` is the submitted list, `output` the
decoded agreed subset (whose length the source asserts to be at most
`len(fields)`). When the agreed subset is empty every submitted field goes
back to the unordered list; otherwise the found fields are pushed onto the
ordered queue in output order after the not-found ones were appended to
the unordered list. -/
def updateFreeFields {α : Type} [DecidableEq α] (fields output : List α)
    (st : PoolState α) : Option (PoolState α) :=
  if fields.isEmpty then some st
  else if fields.length < output.length then none
  else if output.isEmpty then
    some { st with freed := st.freed ++ fields }
  else
    match fillLoop output fields (List.replicate output.length none) [] with
    | none => none
    | some (slots, pend) =>
      match liftSlots slots with
      | none => none
      | some ordered =>
        some { st with freed := st.freed ++ pend, free := st.free ++ ordered }

/-- What the slot list looks like after processing the submitted fields
`fs`: the slot of an output entry found among `fs` holds that entry, other
slots are unchanged. -/
def mergeSlots {α : Type} [DecidableEq α] (fs : List α) :
    List α → List (Option α) → List (Option α)
  | [], _ => []
  | _, [] => []
  | v :: vs, s :: ss => (if v ∈ fs then some v else s) :: mergeSlots fs vs ss

theorem firstIdx_none_iff {α : Type} [DecidableEq α] (l : List α) (v : α) :
    firstIdx l v = none ↔ v ∉ l := by
  induction l with
  | nil => simp [firstIdx]
  | cons x xs ih =>
    unfold firstIdx
    by_cases hx : x = v
    · simp [hx]
    · rw [if_neg hx]
      constructor
      · intro h hc
        rcases List.mem_cons.1 hc with h1 | h2
        · exact hx h1.symm
        · cases hfi : firstIdx xs v with
          | some j => rw [hfi] at h; simp at h
          | none => exact (ih.1 hfi) h2
      · intro h
        have hnx : v ∉ xs := fun hc => h (List.mem_cons_of_mem _ hc)
        rw [ih.2 hnx]
        rfl

theorem firstIdx_some {α : Type} [DecidableEq α] (l : List α) (v : α) :
    ∀ i, firstIdx l v = some i → l[i]? = some v := by
  induction l with
  | nil => intro i h; cases h
  | cons x xs ih =>
    intro i h
    unfold firstIdx at h
    by_cases hx : x = v
    · rw [if_pos hx] at h
      cases h
      simpa using hx
    · rw [if_neg hx] at h
      rcases Option.map_eq_some'.1 h with ⟨j, hj, hji⟩
      subst hji
      simpa using ih j hj

theorem setSlot_of_none {α : Type} (v : α) :
    ∀ (slots : List (Option α)) (i : Nat), slots[i]? = some none →
      setSlot slots i v = some (slots.set i (some v)) := by
  intro slots
  induction slots with
  | nil => intro i h; simp at h
  | cons s rest ih =>
    intro i h
    cases i with
    | zero =>
      simp only [List.getElem?_cons_zero, Option.some_inj] at h
      subst h
      rfl
    | succ n =>
      simp only [List.getElem?_cons_succ] at h
      simp [setSlot, ih n h, List.set]

theorem mergeSlots_nil {α : Type} [DecidableEq α] :
    ∀ (vs : List α) (ss : List (Option α)), ss.length = vs.length →
      mergeSlots ([] : List α) vs ss = ss := by
  intro vs
  induction vs with
  | nil =>
    intro ss h
    cases ss with
    | nil => rfl
    | cons s ss' => simp at h
  | cons v vs' ih =>
    intro ss h
    cases ss with
    | nil => simp at h
    | cons s ss' =>
      have h' : ss'.length = vs'.length := by
        simp only [List.length_cons] at h; omega
      show (if v ∈ ([] : List α) then some v else s) :: mergeSlots [] vs' ss' = s :: ss'
      rw [if_neg (List.not_mem_nil v), ih ss' h']

theorem mergeSlots_not_mem {α : Type} [DecidableEq α] (f : α) (fs : List α) :
    ∀ (vs : List α) (ss : List (Option α)), f ∉ vs →
      mergeSlots (f :: fs) vs ss = mergeSlots fs vs ss := by
  intro vs
  induction vs with
  | nil => intro ss _; cases ss <;> rfl
  | cons v vs' ih =>
    intro ss hf
    cases ss with
    | nil => rfl
    | cons s ss' =>
      have hvf : v ≠ f := fun hc => hf (List.mem_cons.2 (Or.inl hc.symm))
      show (if v ∈ f :: fs then some v else s) :: mergeSlots (f :: fs) vs' ss' =
        (if v ∈ fs then some v else s) :: mergeSlots fs vs' ss'
      congr 1
      · by_cases hv : v ∈ fs
        · rw [if_pos hv, if_pos (List.mem_cons_of_mem _ hv)]
        · rw [if_neg hv, if_neg ?hnc]
          case hnc =>
            intro hc
            rcases List.mem_cons.1 hc with h1 | h2
            · exact hvf h1
            · exact hv h2
      · exact ih ss' (fun hc => hf (List.mem_cons_of_mem _ hc))

theorem mergeSlots_set {α : Type} [DecidableEq α] (f : α) (fs : List α) (hffs : f ∉ fs) :
    ∀ (vs : List α) (ss : List (Option α)) (idx : Nat), vs.Nodup →
      vs[idx]? = some f → ss.length = vs.length →
      mergeSlots (f :: fs) vs ss = mergeSlots fs vs (ss.set idx (some f)) := by
  intro vs
  induction vs with
  | nil => intro ss idx _ h _; simp at h
  | cons v vs' ih =>
    intro ss idx hnd hidx hlen
    cases ss with
    | nil => simp at hlen
    | cons s ss' =>
      have hlen' : ss'.length = vs'.length := by
        simp only [List.length_cons] at hlen; omega
      cases idx with
      | zero =>
        simp only [List.getElem?_cons_zero, Option.some_inj] at hidx
        subst hidx
        have hnv : v ∉ vs' := (List.nodup_cons.1 hnd).1
        rw [List.set_cons_zero]
        show (if v ∈ v :: fs then some v else s) :: mergeSlots (v :: fs) vs' ss' =
          (if v ∈ fs then some v else some v) :: mergeSlots fs vs' ss'
        congr 1
        · rw [if_pos (List.mem_cons_self v fs), ite_self]
        · exact mergeSlots_not_mem v fs vs' ss' hnv
      | succ j =>
        simp only [List.getElem?_cons_succ] at hidx
        have hvf : v ≠ f := by
          intro hc
          have hfmem : f ∈ vs' := by
            rw [List.mem_iff_getElem?]; exact ⟨j, hidx⟩
          exact (List.nodup_cons.1 hnd).1 (hc ▸ hfmem)
        rw [List.set_cons_succ]
        show (if v ∈ f :: fs then some v else s) :: mergeSlots (f :: fs) vs' ss' =
          (if v ∈ fs then some v else s) :: mergeSlots fs vs' (ss'.set j (some f))
        congr 1
        · by_cases hv : v ∈ fs
          · rw [if_pos hv, if_pos (List.mem_cons_of_mem _ hv)]
          · rw [if_neg hv, if_neg ?hnc2]
            case hnc2 =>
              intro hc
              rcases List.mem_cons.1 hc with h1 | h2
              · exact hvf h1
              · exact hv h2
        · exact ih ss' j (List.nodup_cons.1 hnd).2 hidx hlen'

/-- Full characterisation of the outer search loop of
`update_free_fields`. -/
theorem fillLoop_spec {α : Type} [DecidableEq α] (output : List α) (hond : output.Nodup) :
    ∀ (fs : List α) (slots : List (Option α)) (pend : List α),
      fs.Nodup →
      slots.length = output.length →
      (∀ f ∈ fs, ∀ i : Nat, output[i]? = some f → slots[i]? = some none) →
      fillLoop output fs slots pend =
        some (mergeSlots fs output slots,
              pend ++ fs.filter (fun f => decide (f ∉ output))) := by
  intro fs
  induction fs with
  | nil =>
    intro slots pend _ hlen _
    simp [fillLoop, mergeSlots_nil output slots hlen]
  | cons f fs' ih =>
    intro slots pend hnd hlen hempty
    have hnff : f ∉ fs' := (List.nodup_cons.1 hnd).1
    unfold fillLoop
    cases hfi : firstIdx output f with
    | none =>
      dsimp only
      have hfo : f ∉ output := (firstIdx_none_iff output f).1 hfi
      rw [ih slots (pend ++ [f]) (List.nodup_cons.1 hnd).2 hlen
        (by intro g hg i hi; exact hempty g (List.mem_cons_of_mem _ hg) i hi)]
      rw [mergeSlots_not_mem f fs' output slots hfo]
      have hfilter : (f :: fs').filter (fun g => decide (g ∉ output)) =
          f :: fs'.filter (fun g => decide (g ∉ output)) := by
        simp [List.filter_cons, hfo]
      rw [hfilter]
      simp
    | some idx =>
      dsimp only
      have hout : output[idx]? = some f := firstIdx_some output f idx hfi
      have hslot : slots[idx]? = some none :=
        hempty f (List.mem_cons_self f fs') idx hout
      rw [setSlot_of_none f slots idx hslot]
      dsimp only
      have hlen' : (slots.set idx (some f)).length = output.length := by
        rw [List.length_set]; exact hlen
      have hempty' : ∀ g ∈ fs', ∀ i : Nat, output[i]? = some g →
          (slots.set idx (some f))[i]? = some none := by
        intro g hg i hi
        have hgf : g ≠ f := fun hc => hnff (hc ▸ hg)
        have hine : idx ≠ i := by
          intro hc
          subst hc
          rw [hout] at hi
          exact hgf (Option.some_inj.1 hi).symm
        rw [List.getElem?_set_ne hine]
        exact hempty g (List.mem_cons_of_mem _ hg) i hi
      rw [ih (slots.set idx (some f)) pend (List.nodup_cons.1 hnd).2 hlen' hempty']
      rw [← mergeSlots_set f fs' hnff output slots idx hond hout hlen]
      have hfo : f ∈ output := by
        rw [List.mem_iff_getElem?]; exact ⟨idx, hout⟩
      have hfilter : (f :: fs').filter (fun g => decide (g ∉ output)) =
          fs'.filter (fun g => decide (g ∉ output)) := by
        simp [List.filter_cons, hfo]
      rw [hfilter]

theorem mergeSlots_all_found {α : Type} [DecidableEq α] (fs : List α) :
    ∀ (vs : List α), (∀ v ∈ vs, v ∈ fs) →
      mergeSlots fs vs (List.replicate vs.length none) = vs.map some := by
  intro vs
  induction vs with
  | nil => simp [mergeSlots]
  | cons v vs' ih =>
    intro hsub
    have hv : v ∈ fs := hsub v (List.mem_cons_self v vs')
    simp only [List.length_cons, List.replicate_succ, mergeSlots, if_pos hv,
      List.map_cons]
    rw [ih (fun g hg => hsub g (List.mem_cons_of_mem _ hg))]

theorem liftSlots_map_some {α : Type} :
    ∀ (l : List α), liftSlots (l.map some) = some l := by
  intro l
  induction l with
  | nil => rfl
  | cons v rest ih => simp [liftSlots, ih]

/-! ## Claim theorem: match-result redistribution -/

/-- C4: consuming a resolved consensus match with submitted fields
`fields` (pairwise distinct, as fields freed at most once are) and decoded
agreed subset `output` (a duplicate-free selection from the submitted
fields, as the consensus protocol guarantees) succeeds and: pushes exactly
the fields appearing in the agreed subset onto the local free queue, in
the order the match returned; appends every submitted field not present in
the agreed subset to the unordered pending list (not a fatal error); and
in particular when the agreed subset is empty every submitted field goes
to the unordered pending list. -/
theorem updateFreeFields_redistributes {α : Type} [DecidableEq α]
    (fields output : List α) (st : PoolState α)
    (hf : fields.Nodup) (ho : output.Nodup) (hsub : ∀ v ∈ output, v ∈ fields) :
    updateFreeFields fields output st =
      some ⟨st.free ++ output,
            st.freed ++ fields.filter (fun f => decide (f ∉ output))⟩ := by
  unfold updateFreeFields
  cases fields with
  | nil =>
    have hout : output = [] := by
      cases output with
      | nil => rfl
      | cons v vs => exact absurd (hsub v (List.mem_cons_self v vs)) (by simp)
    subst hout
    simp
  | cons f0 fr =>
    have hne : ¬ (f0 :: fr).isEmpty = true := by simp
    rw [if_neg hne]
    have hlen : ¬ (f0 :: fr).length < output.length := by
      have hsp := List.Nodup.subperm ho (fun v hv => hsub v hv)
      have := hsp.length_le
      omega
    rw [if_neg hlen]
    cases houtc : output with
    | nil =>
      simp
    | cons o0 or' =>
      rw [← houtc]
      have hone : ¬ output.isEmpty = true := by rw [houtc]; simp
      rw [if_neg hone]
      rw [fillLoop_spec output ho (f0 :: fr) (List.replicate output.length none) []
        hf (by simp)
        (by
          intro g _ i hi
          have hilt : i < output.length := by
            rw [List.getElem?_eq_some] at hi
            exact hi.1
          simp [List.getElem?_replicate, hilt])]
      dsimp only
      rw [mergeSlots_all_found (f0 :: fr) output hsub]
      rw [liftSlots_map_some output]
      dsimp only
      simp

/-- Witness for C4: submitted fields `[(1,0), (1,1), (2,0)]`, agreed subset
`[(1,1), (1,0)]`: the two agreed fields go to the free queue in match
order and `(2,0)` is re-queued as pending. -/
theorem updateFreeFields_redistributes_witness :
    updateFreeFields [(1, 0), (1, 1), (2, 0)] [(1, 1), (1, 0)]
        (⟨[], []⟩ : PoolState (Nat × Nat)) =
      some ⟨[(1, 1), (1, 0)], [(2, 0)]⟩ := by
  have h := updateFreeFields_redistributes [(1, 0), (1, 1), (2, 0)] [(1, 1), (1, 0)]
    (⟨[], []⟩ : PoolState (Nat × Nat)) (by decide) (by decide) (by decide)
  rw [h]
  rfl

/-! ## PartitionManager: the launch-shape planner

`PartitionManager.__init__` (runtime.py lines 462-497) factors the tunable
`_num_pieces` over the primes 2, 3, 5, 7, 11 (raising `ValueError` on a
larger prime factor) and stores the reversed factor list.
`compute_launch_shape` (lines 499-647) is embedded as the pure cache-miss
computation. The only non-integer step in the source is the 2-d branch's
`n = math.sqrt(float(max_pieces * nx) / float(ny))` followed by
`int(math.floor(n + 1e-12))` and `int(math.ceil(n - 1e-12))`: those two
rounded integers are taken as parameters `n1s`/`n2s`, so every theorem
below holds for every value the floating-point computation could produce. -/

/-- One `while pieces % f == 0` loop of `PartitionManager.__init__`:
repeatedly divide `f` out, collecting one list entry per division. The
fuel argument bounds the recursion; `np` steps always suffice for a
positive argument, and a zero argument loops forever in Python (`none`). -/
def divideOut (f : Nat) : Nat → Nat → Option (List Nat × Nat)
  | 0, p => if p % f ≠ 0 then some ([], p) else none
  | fuel + 1, p =>
    if p % f ≠ 0 then some ([], p)
    else (divideOut f fuel (p / f)).map (fun lr => (f :: lr.1, lr.2))

/-- `PartitionManager.__init__`: the `_piece_factors` list — the prime
factors 2, 3, 5, 7, 11 of `_num_pieces` in reversed collection order;
`none` models the `ValueError` for an unsupported larger prime factor. -/
def mkPieceFactors (np : Nat) : Option (List Nat) :=
  (divideOut 2 np np).bind fun a =>
  (divideOut 3 np a.2).bind fun b =>
  (divideOut 5 np b.2).bind fun c =>
  (divideOut 7 np c.2).bind fun d =>
  (divideOut 11 np d.2).bind fun e =>
  if 1 < e.2 then none
  else some (a.1 ++ b.1 ++ c.1 ++ d.1 ++ e.1).reverse

/-- The 2-d branch's downward search: `while max_pieces % n1 != 0: n1 -= 1`. -/
def searchDown (m : Nat) : Nat → Nat
  | 0 => 0
  | n + 1 => if m % (n + 1) = 0 then n + 1 else searchDown m n

/-- The 2-d branch's upward search: `while max_pieces % n2 != 0: n2 += 1`;
fuelled, `none` when the Python loop would never find a divisor. -/
def searchUp (m : Nat) : Nat → Nat → Option Nat
  | 0, _ => none
  | fuel + 1, n => if m % n = 0 then some n else searchUp m fuel (n + 1)

/-- Python `max(l)` on a list of naturals. -/
def listMax (l : List Nat) : Nat := l.foldl max 0

/-- Python `l.index(v)`: the first index of `v` (the list length when `v`
is absent, which never happens at the call sites). -/
def idxOf : List Nat → Nat → Nat
  | [], _ => 0
  | x :: xs, v => if x = v then 0 else idxOf xs v + 1

/-- `temp_result[i] *= f` on a list. -/
def mulAt (i f : Nat) : List Nat → List Nat
  | [] => []
  | x :: xs =>
    match i with
    | 0 => x * f :: xs
    | j + 1 => x :: mulAt j f xs

/-- `remaining = map(lambda s, r: (s + r - 1) // r, temp_shape, temp_result)`. -/
def remainingOf (temp tr : List Nat) : List Nat :=
  List.zipWith (fun s r => (s + r - 1) / r) temp tr

/-- One iteration body of the `for factor in self._piece_factors` loop of
the high-dimensional branch: pick the dimension with the largest remaining
per-piece size, protecting the last dimension from dropping below 32
unless no other dimension can absorb the factor. -/
def applyFactor (temp : List Nat) (f : Nat) (tr : List Nat) : List Nat :=
  if idxOf (remainingOf temp tr) (listMax (remainingOf temp tr)) < temp.length - 1 then
    mulAt (idxOf (remainingOf temp tr) (listMax (remainingOf temp tr))) f tr
  else if (remainingOf temp tr).length = 1 ∨
      32 ≤ (remainingOf temp tr).getD
        (idxOf (remainingOf temp tr) (listMax (remainingOf temp tr))) 0 / f then
    mulAt (idxOf (remainingOf temp tr) (listMax (remainingOf temp tr))) f tr
  else if 0 < (remainingOf temp tr).getD
      (idxOf (remainingOf temp tr)
        (listMax ((remainingOf temp tr).take ((remainingOf temp tr).length - 1)))) 0 / f then
    mulAt (idxOf (remainingOf temp tr)
      (listMax ((remainingOf temp tr).take ((remainingOf temp tr).length - 1)))) f tr
  else mulAt (temp.length - 1) f tr

/-- The full factor loop of the high-dimensional branch, with the
`if factor * factor_prod > max_pieces: break` guard. -/
def greedyAssign (m : Nat) (temp : List Nat) : List Nat → Nat → List Nat → List Nat
  | [], _, tr => tr
  | f :: fs, fp, tr =>
    if m < f * fp then tr
    else greedyAssign m temp fs (f * fp) (applyFactor temp f tr)

/-- Projection back onto the original dimensionality: dimensions of extent
1 get piece count 1, the others consume the computed piece counts in
order. -/
def reexpand : List Nat → List Nat → List Nat
  | [], _ => []
  | d :: ds, rs =>
    if d = 1 then 1 :: reexpand ds rs
    else rs.headD 1 :: reexpand ds rs.tail

/-- The planner's result: the no-parallel-launch sentinel (Python `None`)
or a launch shape. -/
inductive LaunchResult where
  | noLaunch : LaunchResult
  | launch : List Nat → LaunchResult
  deriving DecidableEq

/-- The 2-d square-tiling branch of `compute_launch_shape` (runtime.py
lines 555-594) after the floating-point square root has been rounded to
the two starting points `n1s` (floored) and `n2s` (ceiled): swap so that
`nx ≤ ny`, find the divisors `n1` (downward search) and `n2` (upward
search) of `np`, pick whichever gives the shorter long tile side, and trim
each piece count by its dimension's extent. `none` models the
`ZeroDivisionError` when `n2s` is zero and the non-terminating upward
search. -/
def twoDimLaunch (np n1s n2s nx0 ny0 : Nat) : Option (List Nat) :=
  let nx := if ny0 < nx0 then ny0 else nx0
  let ny := if ny0 < nx0 then nx0 else ny0
  let n1 := searchDown np (max n1s 1)
  if n2s = 0 then none
  else
    match searchUp np (np + 1) n2s with
    | none => none
    | some n2 =>
      let side1 := max (nx / n1) (ny / (np / n1))
      let side2 := max (nx / n2) (ny / (np / n2))
      let px := if side1 ≤ side2 then n1 else n2
      let py := np / px
      some (if ny0 < nx0 then [min py nx0, min px ny0]
            else [min px nx0, min py ny0])

/-- `PartitionManager.compute_launch_shape` (runtime.py lines 499-647) as
the pure cache-miss computation. `np` is the `_num_pieces` tunable, `msv`
the `_min_shard_volume` tunable, `factors` the `_piece_factors` list, and
`n1s`/`n2s` the two integers the 2-d branch's floating-point square-root
rounding produces. The outer `Option` is `none` when the source raises
(an assertion failure, division by zero for a zero tunable, or the
non-terminating upward divisor search). -/
def computeLaunchShape (np msv n1s n2s : Nat) (factors : List Nat)
    (shape : List Nat) : Option LaunchResult :=
  if np = 0 then none
  else if np = 1 then some .noLaunch
  else if ∀ d ∈ shape, d ≤ 1 then some .noLaunch
  else if 0 ∈ shape then none
  else
    let temp := shape.filter (fun d => decide (d ≠ 1))
    let volume := temp.foldl (· * ·) 1
    if msv = 0 then none
    else
      let maxPieces0 := (volume + msv - 1) / msv
      if maxPieces0 = 0 then none
      else if maxPieces0 = 1 then some .noLaunch
      else
        let maxPieces := np
        let dims := temp.length
        if dims = 0 then some (.launch (shape.map fun _ => 1))
        else if dims = 1 then
          some (.launch (reexpand shape [min (temp.headD 0) maxPieces]))
        else if dims = 2 then
          if volume < maxPieces then some (.launch (reexpand shape temp))
          else
            match twoDimLaunch maxPieces n1s n2s (temp.headD 0) (temp.tail.headD 0) with
            | none => none
            | some tr => some (.launch (reexpand shape tr))
        else
          some (.launch (reexpand shape
            (greedyAssign maxPieces temp factors 1 (List.replicate dims 1))))

/-! ## Planner lemmas -/

theorem searchDown_spec (m : Nat) :
    ∀ n, 1 ≤ n → m % searchDown m n = 0 ∧ 1 ≤ searchDown m n := by
  intro n
  induction n with
  | zero => intro h; omega
  | succ k ih =>
    intro _
    unfold searchDown
    by_cases hd : m % (k + 1) = 0
    · rw [if_pos hd]; exact ⟨hd, by omega⟩
    · rw [if_neg hd]
      apply ih
      rcases Nat.eq_zero_or_pos k with rfl | hk
      · exact absurd (Nat.mod_one m) hd
      · exact hk

theorem searchUp_spec (m : Nat) :
    ∀ (fuel n k : Nat), searchUp m fuel n = some k → m % k = 0 ∧ n ≤ k := by
  intro fuel
  induction fuel with
  | zero => intro n k h; cases h
  | succ fl ih =>
    intro n k h
    unfold searchUp at h
    by_cases hd : m % n = 0
    · rw [if_pos hd] at h
      cases h
      exact ⟨hd, Nat.le_refl _⟩
    · rw [if_neg hd] at h
      obtain ⟨h1, h2⟩ := ih (n + 1) k h
      exact ⟨h1, by omega⟩

theorem mulAt_length (f : Nat) :
    ∀ (tr : List Nat) (i : Nat), (mulAt i f tr).length = tr.length := by
  intro tr
  induction tr with
  | nil => intro i; cases i <;> rfl
  | cons x xs ih =>
    intro i
    cases i with
    | zero => rfl
    | succ j => simp [mulAt, ih j]

theorem mulAt_prod (f : Nat) :
    ∀ (tr : List Nat) (i : Nat), i < tr.length →
      (mulAt i f tr).prod = f * tr.prod := by
  intro tr
  induction tr with
  | nil => intro i h; simp at h
  | cons x xs ih =>
    intro i h
    cases i with
    | zero => simp [mulAt, List.prod_cons]; ring
    | succ j =>
      have hj : j < xs.length := by simp at h; omega
      simp [mulAt, List.prod_cons, ih j hj]; ring

theorem mulAt_pos (f : Nat) (hf : 1 ≤ f) :
    ∀ (tr : List Nat) (i : Nat), (∀ x ∈ tr, 1 ≤ x) →
      ∀ y ∈ mulAt i f tr, 1 ≤ y := by
  intro tr
  induction tr with
  | nil => intro i _ y hy; cases i <;> cases hy
  | cons x xs ih =>
    intro i hpos y hy
    cases i with
    | zero =>
      rcases List.mem_cons.1 hy with h | h
      · have hx : 1 ≤ x := hpos x (List.mem_cons_self x xs)
        subst h
        exact Nat.mul_le_mul hx hf
      · exact hpos y (List.mem_cons_of_mem _ h)
    | succ j =>
      rcases List.mem_cons.1 hy with h | h
      · subst h; exact hpos y (List.mem_cons_self y xs)
      · exact ih j (fun z hz => hpos z (List.mem_cons_of_mem _ hz)) y h

theorem idxOf_lt_of_mem : ∀ (l : List Nat) (v : Nat), v ∈ l → idxOf l v < l.length := by
  intro l
  induction l with
  | nil => intro v h; cases h
  | cons x xs ih =>
    intro v h
    unfold idxOf
    by_cases hx : x = v
    · rw [if_pos hx]; simp
    · rw [if_neg hx]
      have hv : v ∈ xs := by
        rcases List.mem_cons.1 h with h1 | h1
        · exact absurd h1.symm hx
        · exact h1
      have := ih v hv
      simp
      omega

theorem foldlMax_choice : ∀ (xs : List Nat) (a : Nat),
    xs.foldl max a = a ∨ xs.foldl max a ∈ xs := by
  intro xs
  induction xs with
  | nil => intro a; left; rfl
  | cons y ys ih =>
    intro a
    rcases ih (max a y) with h | h
    · rcases Nat.le_total a y with hle | hle
      · right
        rw [List.foldl_cons, h, Nat.max_eq_right hle]
        exact List.mem_cons_self y ys
      · left
        rw [List.foldl_cons, h, Nat.max_eq_left hle]
    · right
      rw [List.foldl_cons]
      exact List.mem_cons_of_mem _ h

theorem listMax_mem (l : List Nat) (h : l ≠ []) : listMax l ∈ l := by
  cases l with
  | nil => exact absurd rfl h
  | cons x xs =>
    unfold listMax
    rw [List.foldl_cons, Nat.max_eq_right (Nat.zero_le x)]
    rcases foldlMax_choice xs x with h1 | h1
    · rw [h1]; exact List.mem_cons_self x xs
    · exact List.mem_cons_of_mem _ h1

/-- `applyFactor` multiplies exactly one in-range entry by the factor:
length is preserved, the product gains exactly the factor, and positive
entries stay positive for a positive factor. -/
theorem applyFactor_spec (temp : List Nat) (f : Nat) (tr : List Nat)
    (hlen : temp.length = tr.length) (hne : tr ≠ []) :
    (applyFactor temp f tr).length = tr.length ∧
    (applyFactor temp f tr).prod = f * tr.prod ∧
    (1 ≤ f → (∀ x ∈ tr, 1 ≤ x) → ∀ y ∈ applyFactor temp f tr, 1 ≤ y) := by
  have htl : 0 < tr.length := List.length_pos.2 hne
  have hrem : (remainingOf temp tr).length = tr.length := by
    rw [remainingOf, List.length_zipWith, hlen, Nat.min_self]
  have hrne : remainingOf temp tr ≠ [] := by
    intro hc
    rw [hc] at hrem
    simp at hrem
    omega
  have key : ∃ idx, idx < tr.length ∧ applyFactor temp f tr = mulAt idx f tr := by
    unfold applyFactor
    by_cases h1 : idxOf (remainingOf temp tr) (listMax (remainingOf temp tr)) <
        temp.length - 1
    · exact ⟨idxOf (remainingOf temp tr) (listMax (remainingOf temp tr)),
        by omega, by rw [if_pos h1]⟩
    · rw [if_neg h1]
      by_cases h2 : (remainingOf temp tr).length = 1 ∨
          32 ≤ (remainingOf temp tr).getD
            (idxOf (remainingOf temp tr) (listMax (remainingOf temp tr))) 0 / f
      · refine ⟨_, ?_, by rw [if_pos h2]⟩
        have := idxOf_lt_of_mem _ _ (listMax_mem _ hrne)
        omega
      · rw [if_neg h2]
        by_cases h3 : 0 < (remainingOf temp tr).getD
            (idxOf (remainingOf temp tr)
              (listMax ((remainingOf temp tr).take
                ((remainingOf temp tr).length - 1)))) 0 / f
        · refine ⟨_, ?_, by rw [if_pos h3]⟩
          have hlen2 : (remainingOf temp tr).length ≠ 1 := by
            intro hc
            exact h2 (Or.inl hc)
          have htake : (remainingOf temp tr).take
              ((remainingOf temp tr).length - 1) ≠ [] := by
            have : 0 < (remainingOf temp tr).length := by omega
            simp [List.take_eq_nil_iff, hrne]
            omega
          have hmem : listMax ((remainingOf temp tr).take
              ((remainingOf temp tr).length - 1)) ∈ remainingOf temp tr :=
            List.take_subset _ _ (listMax_mem _ htake)
          have := idxOf_lt_of_mem _ _ hmem
          omega
        · refine ⟨temp.length - 1, by omega, by rw [if_neg h3]⟩
  obtain ⟨idx, hidx, heq⟩ := key
  rw [heq]
  exact ⟨mulAt_length f tr idx, mulAt_prod f tr idx hidx,
    fun hf hpos => mulAt_pos f hf tr idx hpos⟩

/-- Invariant of the factor loop: entries stay positive, the product
equals the accumulated factor product, and the accumulated product never
exceeds `m`. -/
theorem greedyAssign_spec (m : Nat) (temp : List Nat) :
    ∀ (factors : List Nat) (fp : Nat) (tr : List Nat),
      (∀ g ∈ factors, 1 ≤ g) →
      temp.length = tr.length → tr ≠ [] →
      (∀ x ∈ tr, 1 ≤ x) → tr.prod = fp → fp ≤ m →
      (∀ y ∈ greedyAssign m temp factors fp tr, 1 ≤ y) ∧
      (greedyAssign m temp factors fp tr).prod ≤ m ∧
      (greedyAssign m temp factors fp tr).length = tr.length := by
  intro factors
  induction factors with
  | nil =>
    intro fp tr _ _ _ hpos hprod hle
    rw [greedyAssign]
    exact ⟨hpos, by rw [hprod]; exact hle, rfl⟩
  | cons g gs ih =>
    intro fp tr hg hlen hne hpos hprod hle
    rw [greedyAssign]
    by_cases hbr : m < g * fp
    · rw [if_pos hbr]
      exact ⟨hpos, by rw [hprod]; exact hle, rfl⟩
    · rw [if_neg hbr]
      obtain ⟨hl, hp, hposaf⟩ := applyFactor_spec temp g tr hlen hne
      have hg1 : 1 ≤ g := hg g (List.mem_cons_self g gs)
      have hne2 : applyFactor temp g tr ≠ [] := by
        intro hc
        rw [hc] at hl
        have := List.length_pos.2 hne
        simp at hl
        omega
      have hprod2 : (applyFactor temp g tr).prod = g * fp := by rw [hp, hprod]
      have hle2 : g * fp ≤ m := by omega
      have hres := ih (g * fp) (applyFactor temp g tr)
        (fun x hx => hg x (List.mem_cons_of_mem _ hx))
        (by rw [hl]; exact hlen) hne2 (hposaf hg1 hpos) hprod2 hle2
      exact ⟨hres.1, hres.2.1, by rw [hres.2.2, hl]⟩

/-- Re-expansion to the original dimensionality preserves the product and
only introduces 1-entries beyond the computed piece counts (when the
computed list has exactly one entry per non-degenerate dimension). -/
theorem reexpand_spec :
    ∀ (shape tr : List Nat),
      tr.length = (shape.filter (fun d => decide (d ≠ 1))).length →
      (reexpand shape tr).prod = tr.prod ∧
      (∀ x ∈ reexpand shape tr, x = 1 ∨ x ∈ tr) := by
  intro shape
  induction shape with
  | nil =>
    intro tr hlen
    simp at hlen
    subst hlen
    simp [reexpand]
  | cons d ds ih =>
    intro tr hlen
    by_cases hd : d = 1
    · subst hd
      have hlen' : tr.length = (ds.filter (fun d => decide (d ≠ 1))).length := by
        simpa [List.filter_cons] using hlen
      obtain ⟨hp, hm⟩ := ih tr hlen'
      rw [reexpand, if_pos rfl]
      constructor
      · simp [List.prod_cons, hp]
      · intro x hx
        rcases List.mem_cons.1 hx with h | h
        · left; exact h
        · exact hm x h
    · have hlen' : tr.length = (ds.filter (fun d => decide (d ≠ 1))).length + 1 := by
        simpa [List.filter_cons, hd] using hlen
      cases tr with
      | nil => simp at hlen'
      | cons t ts =>
        have hlen'' : ts.length = (ds.filter (fun d => decide (d ≠ 1))).length := by
          simpa using hlen'
        obtain ⟨hp, hm⟩ := ih ts hlen''
        rw [reexpand, if_neg hd]
        simp only [List.headD_cons, List.tail_cons]
        constructor
        · simp [List.prod_cons, hp]
        · intro x hx
          rcases List.mem_cons.1 hx with h | h
          · right; rw [h]; exact List.mem_cons_self t ts
          · rcases hm x h with h1 | h1
            · left; exact h1
            · right; exact List.mem_cons_of_mem _ h1

theorem divideOut_mem (f : Nat) :
    ∀ (fuel p : Nat) (l : List Nat) (r : Nat),
      divideOut f fuel p = some (l, r) → ∀ x ∈ l, x = f := by
  intro fuel
  induction fuel with
  | zero =>
    intro p l r h x hx
    unfold divideOut at h
    by_cases hd : p % f ≠ 0
    · rw [if_pos hd] at h
      cases h
      cases hx
    · rw [if_neg hd] at h
      cases h
  | succ fl ih =>
    intro p l r h x hx
    unfold divideOut at h
    by_cases hd : p % f ≠ 0
    · rw [if_pos hd] at h
      cases h
      cases hx
    · rw [if_neg hd] at h
      rcases Option.map_eq_some'.1 h with ⟨⟨l', r'⟩, hdo, heq⟩
      cases heq
      rcases List.mem_cons.1 hx with h1 | h1
      · exact h1
      · exact ih (p / f) l' r' hdo x h1

/-- Every factor `PartitionManager.__init__` collects is one of the primes
2, 3, 5, 7, 11, hence positive. -/
theorem mkPieceFactors_pos (np : Nat) (factors : List Nat)
    (h : mkPieceFactors np = some factors) : ∀ g ∈ factors, 1 ≤ g := by
  unfold mkPieceFactors at h
  rcases ha : divideOut 2 np np with _ | ⟨l2, p2⟩
  · rw [ha] at h; simp at h
  rw [ha, Option.some_bind] at h
  rcases hb : divideOut 3 np p2 with _ | ⟨l3, p3⟩
  · rw [hb] at h; simp at h
  rw [hb, Option.some_bind] at h
  rcases hc : divideOut 5 np p3 with _ | ⟨l5, p5⟩
  · rw [hc] at h; simp at h
  rw [hc, Option.some_bind] at h
  rcases hd : divideOut 7 np p5 with _ | ⟨l7, p7⟩
  · rw [hd] at h; simp at h
  rw [hd, Option.some_bind] at h
  rcases he : divideOut 11 np p7 with _ | ⟨l11, p11⟩
  · rw [he] at h; simp at h
  rw [he, Option.some_bind] at h
  by_cases hgt : 1 < p11
  · rw [if_pos hgt] at h; cases h
  · rw [if_neg hgt] at h
    rw [Option.some_inj] at h
    subst h
    intro g hg
    rw [List.mem_reverse] at hg
    simp only [List.mem_append] at hg
    rcases hg with ((((h2 | h3) | h5) | h7) | h11)
    · rw [divideOut_mem 2 np np l2 p2 ha g h2]; omega
    · rw [divideOut_mem 3 np p2 l3 p3 hb g h3]; omega
    · rw [divideOut_mem 5 np p3 l5 p5 hc g h5]; omega
    · rw [divideOut_mem 7 np p5 l7 p7 hd g h7]; omega
    · rw [divideOut_mem 11 np p7 l11 p11 he g h11]; omega

/-- The 2-d result is a pair of positive piece counts whose product is at
most `np`. -/
theorem twoDimLaunch_spec (np n1s n2s nx0 ny0 : Nat) (tr : List Nat)
    (hnp : 2 ≤ np) (hx : 1 ≤ nx0) (hy : 1 ≤ ny0)
    (h : twoDimLaunch np n1s n2s nx0 ny0 = some tr) :
    (∀ x ∈ tr, 1 ≤ x) ∧ tr.prod ≤ np ∧ tr.length = 2 := by
  unfold twoDimLaunch at h
  by_cases hn2s : n2s = 0
  · rw [if_pos hn2s] at h; cases h
  rw [if_neg hn2s] at h
  rcases hsu : searchUp np (np + 1) n2s with _ | n2
  · rw [hsu] at h; cases h
  rw [hsu] at h
  dsimp only at h
  obtain ⟨hd1, hp1⟩ := searchDown_spec np (max n1s 1) (le_max_right n1s 1)
  obtain ⟨hd2m, hge2⟩ := searchUp_spec np (np + 1) n2s n2 hsu
  have hp2 : 1 ≤ n2 := by omega
  have hdvd1 : searchDown np (max n1s 1) ∣ np := Nat.dvd_of_mod_eq_zero hd1
  have hdvd2 : n2 ∣ np := Nat.dvd_of_mod_eq_zero hd2m
  rw [Option.some_inj] at h
  subst h
  have main : ∀ px : Nat, px ∣ np → 1 ≤ px →
      (∀ x ∈ [min (np / px) nx0, min px ny0], 1 ≤ x) ∧
      ([min (np / px) nx0, min px ny0] : List Nat).prod ≤ np ∧
      (∀ x ∈ [min px nx0, min (np / px) ny0], 1 ≤ x) ∧
      ([min px nx0, min (np / px) ny0] : List Nat).prod ≤ np := by
    intro px hdvd hpx
    have hpxle : px ≤ np := Nat.le_of_dvd (by omega) hdvd
    have hpy : 1 ≤ np / px := Nat.div_pos hpxle (by omega)
    have hmul : px * (np / px) = np := Nat.mul_div_cancel' hdvd
    refine ⟨?_, ?_, ?_, ?_⟩
    · intro x hxm
      rcases List.mem_cons.1 hxm with h | h
      · subst h; exact le_min hpy hx
      · rcases List.mem_cons.1 h with h1 | h1
        · subst h1; exact le_min hpx hy
        · cases h1
    · have h1 : min (np / px) nx0 * min px ny0 ≤ (np / px) * px :=
        Nat.mul_le_mul (min_le_left _ _) (min_le_left _ _)
      have h2 : (np / px) * px = np := by rw [Nat.mul_comm]; exact hmul
      simp only [List.prod_cons, List.prod_nil, Nat.mul_one]
      omega
    · intro x hxm
      rcases List.mem_cons.1 hxm with h | h
      · subst h; exact le_min hpx hx
      · rcases List.mem_cons.1 h with h1 | h1
        · subst h1; exact le_min hpy hy
        · cases h1
    · have : min px nx0 * min (np / px) ny0 ≤ px * (np / px) :=
        Nat.mul_le_mul (min_le_left _ _) (min_le_left _ _)
      simp only [List.prod_cons, List.prod_nil, Nat.mul_one]
      omega
  by_cases hsw : ny0 < nx0 <;>
    by_cases hside :
      max ((if ny0 < nx0 then ny0 else nx0) / searchDown np (max n1s 1))
        ((if ny0 < nx0 then nx0 else ny0) / (np / searchDown np (max n1s 1))) ≤
      max ((if ny0 < nx0 then ny0 else nx0) / n2)
        ((if ny0 < nx0 then nx0 else ny0) / (np / n2))
  · rw [if_pos hsw, if_pos hside]
    obtain ⟨a1, a2, _, _⟩ := main (searchDown np (max n1s 1)) hdvd1 hp1
    exact ⟨a1, a2, rfl⟩
  · rw [if_pos hsw, if_neg hside]
    obtain ⟨a1, a2, _, _⟩ := main n2 hdvd2 hp2
    exact ⟨a1, a2, rfl⟩
  · rw [if_neg hsw, if_pos hside]
    obtain ⟨_, _, a3, a4⟩ := main (searchDown np (max n1s 1)) hdvd1 hp1
    exact ⟨a3, a4, rfl⟩
  · rw [if_neg hsw, if_neg hside]
    obtain ⟨_, _, a3, a4⟩ := main n2 hdvd2 hp2
    exact ⟨a3, a4, rfl⟩

theorem filter_ones (l : List Nat) (h : ∀ d ∈ l, d = 1) :
    l.filter (fun d => decide (d ≠ 1)) = [] := by
  induction l with
  | nil => rfl
  | cons x xs ih =>
    have hx : x = 1 := h x (List.mem_cons_self x xs)
    rw [List.filter_cons]
    simp [hx]
    intro a ha
    exact h a (List.mem_cons_of_mem _ ha)

theorem reexpand_ones :
    ∀ (l : List Nat), (∀ d ∈ l, d = 1) → ∀ rs, reexpand l rs = l.map (fun _ => 1) := by
  intro l
  induction l with
  | nil => intro _ rs; rfl
  | cons d ds ih =>
    intro h rs
    have hd : d = 1 := h d (List.mem_cons_self d ds)
    rw [reexpand, if_pos hd, List.map_cons]
    rw [ih (fun x hx => h x (List.mem_cons_of_mem _ hx)) rs]

theorem reexpand_one_slot :
    ∀ (pre : List Nat), (∀ d ∈ pre, d = 1) →
      ∀ (post : List Nat), (∀ d ∈ post, d = 1) → ∀ (e x : Nat), e ≠ 1 →
        reexpand (pre ++ e :: post) [x] =
          pre.map (fun _ => 1) ++ x :: post.map (fun _ => 1) := by
  intro pre
  induction pre with
  | nil =>
    intro _ post hpost e x he
    rw [List.nil_append, reexpand, if_neg he]
    simp only [List.headD_cons, List.tail_cons, List.map_nil, List.nil_append]
    rw [reexpand_ones post hpost []]
  | cons p pre' ih =>
    intro hpre post hpost e x he
    have hp : p = 1 := hpre p (List.mem_cons_self p pre')
    rw [List.cons_append, reexpand, if_pos hp, List.map_cons]
    rw [ih (fun d hd => hpre d (List.mem_cons_of_mem _ hd)) post hpost e x he]
    rfl

/-! ## Claim theorems: launch-shape planner -/

/-- C7: for every shape that is one-dimensional after dropping extent-1
dimensions and for which `compute_launch_shape` returns a launch shape
rather than the no-launch sentinel, the returned piece count for the
non-degenerate dimension is exactly `min(extent, shard_count)` (and every
degenerate dimension gets piece count 1). -/
theorem launchShape_one_dim (np msv n1s n2s : Nat) (factors : List Nat)
    (pre post : List Nat) (e : Nat) (r : List Nat)
    (hpre : ∀ d ∈ pre, d = 1) (hpost : ∀ d ∈ post, d = 1) (he : 2 ≤ e)
    (h : computeLaunchShape np msv n1s n2s factors (pre ++ e :: post)
      = some (.launch r)) :
    r = pre.map (fun _ => 1) ++ min e np :: post.map (fun _ => 1) := by
  have hfil : (pre ++ e :: post).filter (fun d => decide (d ≠ 1)) = [e] := by
    rw [List.filter_append, filter_ones pre hpre, List.filter_cons]
    rw [filter_ones post hpost]
    simp [show e ≠ 1 by omega]
  unfold computeLaunchShape at h
  by_cases h0 : np = 0
  · rw [if_pos h0] at h; simp at h
  rw [if_neg h0] at h
  by_cases h1 : np = 1
  · rw [if_pos h1] at h; simp at h
  rw [if_neg h1] at h
  by_cases hall : ∀ d ∈ pre ++ e :: post, d ≤ 1
  · exfalso
    have := hall e (by simp)
    omega
  rw [if_neg hall] at h
  by_cases hz : 0 ∈ pre ++ e :: post
  · exfalso
    rcases List.mem_append.1 hz with h1 | h1
    · have := hpre 0 h1; omega
    · rcases List.mem_cons.1 h1 with h2 | h2
      · omega
      · have := hpost 0 h2; omega
  rw [if_neg hz] at h
  rw [hfil] at h
  dsimp only at h
  rw [show ([e] : List Nat).foldl (· * ·) 1 = 1 * e from rfl] at h
  by_cases hmsv : msv = 0
  · rw [if_pos hmsv] at h; simp at h
  rw [if_neg hmsv] at h
  by_cases hm0 : (1 * e + msv - 1) / msv = 0
  · rw [if_pos hm0] at h; simp at h
  rw [if_neg hm0] at h
  by_cases hm1 : (1 * e + msv - 1) / msv = 1
  · rw [if_pos hm1] at h; simp at h
  rw [if_neg hm1] at h
  rw [show ([e] : List Nat).length = 1 from rfl] at h
  rw [if_neg (by decide : ¬ (1 : Nat) = 0), if_pos rfl] at h
  rw [show ([e] : List Nat).headD 0 = e from rfl] at h
  rw [Option.some_inj] at h
  injection h with h'
  subst h'
  exact reexpand_one_slot pre hpre post hpost e (min e np) (by omega)

/-- Witness for C7: shape `(1000,)` with 8 shards maps to `(8,)` (the
`min` clamps to the shard count), and shape `(3,)` with 8 shards maps to
`(3,)` (clamped to the extent). -/
theorem launchShape_one_dim_witness :
    computeLaunchShape 8 1 0 0 [] [1000] = some (.launch [8]) ∧
    ([8] : List Nat) =
      ([] : List Nat).map (fun _ => 1) ++ min 1000 8 :: ([] : List Nat).map (fun _ => 1) ∧
    computeLaunchShape 8 1 0 0 [] [3] = some (.launch [3]) := by
  refine ⟨by decide, ?_, by decide⟩
  exact launchShape_one_dim 8 1 0 0 [] [] [] 1000 [8]
    (by intro d hd; cases hd) (by intro d hd; cases hd) (by omega) (by decide)

/-- C9: whenever `compute_launch_shape` returns a launch shape for a shape
with positive extents (with the factor list the manager computed at
startup), every per-dimension piece count is at least 1 and the product of
all piece counts never exceeds the shard count. -/
theorem launchShape_pieces_bounded (np msv n1s n2s : Nat) (factors : List Nat)
    (shape r : List Nat)
    (hpos : ∀ d ∈ shape, 0 < d)
    (hfac : mkPieceFactors np = some factors)
    (h : computeLaunchShape np msv n1s n2s factors shape = some (.launch r)) :
    (∀ x ∈ r, 1 ≤ x) ∧ r.prod ≤ np := by
  unfold computeLaunchShape at h
  by_cases h0 : np = 0
  · rw [if_pos h0] at h; simp at h
  rw [if_neg h0] at h
  by_cases h1 : np = 1
  · rw [if_pos h1] at h; simp at h
  rw [if_neg h1] at h
  have hnp2 : 2 ≤ np := by omega
  by_cases hall : ∀ d ∈ shape, d ≤ 1
  · rw [if_pos hall] at h; simp at h
  rw [if_neg hall] at h
  by_cases hz : 0 ∈ shape
  · rw [if_pos hz] at h; simp at h
  rw [if_neg hz] at h
  generalize hT : shape.filter (fun d => decide (d ≠ 1)) = temp at h
  dsimp only at h
  have htemp2 : ∀ d ∈ temp, 2 ≤ d := by
    intro d hd
    rw [← hT] at hd
    obtain ⟨hmem, hdec⟩ := List.mem_filter.1 hd
    have := hpos d hmem
    have hne1 : d ≠ 1 := by simpa using hdec
    omega
  by_cases hmsv : msv = 0
  · rw [if_pos hmsv] at h; simp at h
  rw [if_neg hmsv] at h
  by_cases hm0 : (temp.foldl (· * ·) 1 + msv - 1) / msv = 0
  · rw [if_pos hm0] at h; simp at h
  rw [if_neg hm0] at h
  by_cases hm1 : (temp.foldl (· * ·) 1 + msv - 1) / msv = 1
  · rw [if_pos hm1] at h; simp at h
  rw [if_neg hm1] at h
  by_cases hd0 : temp.length = 0
  · rw [if_pos hd0] at h
    rw [Option.some_inj] at h
    injection h with h'
    subst h'
    constructor
    · intro x hx
      rcases List.mem_map.1 hx with ⟨d, _, hmap⟩
      omega
    · rw [List.prod_eq_one (by
        intro x hx
        rcases List.mem_map.1 hx with ⟨d, _, hmap⟩
        omega)]
      omega
  rw [if_neg hd0] at h
  by_cases hd1 : temp.length = 1
  · rw [if_pos hd1] at h
    rw [Option.some_inj] at h
    injection h with h'
    subst h'
    obtain ⟨t, ht⟩ := List.length_eq_one.1 hd1
    subst ht
    simp only [List.headD_cons]
    have ht2 : 2 ≤ t := htemp2 t (List.mem_cons_self t [])
    have hlen1 : ([min t np] : List Nat).length =
        (shape.filter (fun d => decide (d ≠ 1))).length := by
      rw [hT]
      simp
    obtain ⟨hp, hm⟩ := reexpand_spec shape [min t np] hlen1
    constructor
    · intro x hx
      rcases hm x hx with h1 | h1
      · omega
      · rcases List.mem_cons.1 h1 with h2 | h2
        · rw [h2]; exact le_min (by omega) (by omega)
        · cases h2
    · rw [hp]
      simp only [List.prod_cons, List.prod_nil, Nat.mul_one]
      exact min_le_right t np
  rw [if_neg hd1] at h
  by_cases hd2 : temp.length = 2
  · rw [if_pos hd2] at h
    by_cases hvol : temp.foldl (· * ·) 1 < np
    · rw [if_pos hvol] at h
      rw [Option.some_inj] at h
      injection h with h'
      subst h'
      have hlent : temp.length = (shape.filter (fun d => decide (d ≠ 1))).length := by
        rw [hT]
      obtain ⟨hp, hm⟩ := reexpand_spec shape temp hlent
      constructor
      · intro x hx
        rcases hm x hx with h1 | h1
        · omega
        · have := htemp2 x h1; omega
      · rw [hp, List.prod_eq_foldl]
        omega
    · rw [if_neg hvol] at h
      rcases h2d : twoDimLaunch np n1s n2s (temp.headD 0) (temp.tail.headD 0)
        with _ | tr
      · rw [h2d] at h; simp at h
      · rw [h2d] at h
        dsimp only at h
        rw [Option.some_inj] at h
        injection h with h'
        subst h'
        obtain ⟨a, b, htemp⟩ : ∃ a b, temp = [a, b] := by
          cases temp with
          | nil => simp at hd2
          | cons a t2 =>
            cases t2 with
            | nil => simp at hd2
            | cons b t3 =>
              cases t3 with
              | nil => exact ⟨a, b, rfl⟩
              | cons c t4 => simp at hd2
        subst htemp
        have ha2 : 2 ≤ a := htemp2 a (by simp)
        have hb2 : 2 ≤ b := htemp2 b (by simp)
        obtain ⟨hup, hupr, hlen2⟩ := twoDimLaunch_spec np n1s n2s a b tr hnp2
          (by omega) (by omega) (by simpa using h2d)
        have hlent : tr.length = (shape.filter (fun d => decide (d ≠ 1))).length := by
          rw [hT]
          simpa using hlen2
        obtain ⟨hp, hm⟩ := reexpand_spec shape tr hlent
        constructor
        · intro x hx
          rcases hm x hx with h1 | h1
          · omega
          · exact hup x h1
        · rw [hp]
          exact hupr
  rw [if_neg hd2] at h
  rw [Option.some_inj] at h
  injection h with h'
  subst h'
  have hfpos := mkPieceFactors_pos np factors hfac
  have hrep : temp.length = (List.replicate temp.length (1 : Nat)).length := by simp
  have hrepne : (List.replicate temp.length (1 : Nat)) ≠ [] := by
    intro hc
    cases hlc : temp.length with
    | zero => exact absurd hlc hd0
    | succ n =>
      rw [hlc, List.replicate_succ] at hc
      simp at hc
  obtain ⟨hpos', hprodle, hlenG⟩ := greedyAssign_spec np temp factors 1
    (List.replicate temp.length 1) hfpos hrep hrepne
    (by intro x hx; have := List.eq_of_mem_replicate hx; omega)
    (by simp)
    (by omega)
  have hlenr : (greedyAssign np temp factors 1 (List.replicate temp.length 1)).length =
      (shape.filter (fun d => decide (d ≠ 1))).length := by
    rw [hlenG, hT]
    simp
  obtain ⟨hp, hm⟩ := reexpand_spec shape
    (greedyAssign np temp factors 1 (List.replicate temp.length 1)) hlenr
  constructor
  · intro x hx
    rcases hm x hx with h1 | h1
    · omega
    · exact hpos' x h1
  · rw [hp]
    exact hprodle

/-- Witness for C9 at shape `[10, 10]` with 4 shards (factor list `[2,2]`
as the manager computes): the launch shape is `[2, 2]`, entries at least 1
and product `4 ≤ 4`. -/
theorem launchShape_pieces_bounded_witness :
    mkPieceFactors 4 = some [2, 2] ∧
    computeLaunchShape 4 1 2 2 [2, 2] [10, 10] = some (.launch [2, 2]) ∧
    ((∀ x ∈ ([2, 2] : List Nat), 1 ≤ x) ∧ ([2, 2] : List Nat).prod ≤ 4) := by
  refine ⟨by decide, by decide, ?_⟩
  exact launchShape_pieces_bounded 4 1 2 2 [2, 2] [10, 10] [2, 2]
    (by decide) (by decide) (by decide)

/-! ## FieldManager.allocate_field as a state machine

`FieldManager` (runtime.py lines 164-310) holds the two free lists, the
deque of in-flight matches (represented by their submitted payloads), and
the match counter. Fields are abstract handles (`Nat`); the external
collaborators are oracles: `outs` supplies the decoded agreed subset for
each match resolved during one call, and `extra` the number of additional
fields a region-scan/new-region step pushes onto the free queue (the
shared-field-space path of lines 292-299; 0 for the has-space scan of
lines 262-271 and a fresh field space). The ghost `issued` list tracks
fields handed to consumers and not yet freed, and `next` is a freshness
counter: fields produced by the storage collaborator are new handles. -/

structure FMState where
  pool : PoolState Nat
  matchQueue : List (List Nat)
  counter : Nat
  deriving DecidableEq

/-- Lines 225-248 of `allocate_field`: increment the match counter; when
it reaches the match frequency, take ownership of the pending list
(replacing it with an empty one), wrap it in a match, dispatch and enqueue
it, and reset the counter — unconditionally, even when the pending list is
empty. -/
def matchPhase (freq : Nat) (s : FMState) : FMState :=
  if s.counter + 1 = freq then
    ⟨⟨s.pool.free, []⟩, s.matchQueue ++ [s.pool.freed], 0⟩
  else ⟨s.pool, s.matchQueue, s.counter + 1⟩

/-- Lines 254-259 of `allocate_field`: pop in-flight matches oldest-first,
consume each (`update_free_fields`), and stop as soon as the free queue is
non-empty. Returns the remaining match queue and the pool lists. -/
def resolveMatches : List (List Nat) → List (List Nat) → PoolState Nat →
    Option (List (List Nat) × PoolState Nat)
  | [], _, st => some ([], st)
  | m :: ms, outs, st =>
    match updateFreeFields m (outs.headD []) st with
    | none => none
    | some st' =>
      if st'.free.isEmpty then resolveMatches ms outs.tail st'
      else some (ms, st')

/-- A `FieldManager` plus the ghost ownership state of the trace. -/
structure TraceState where
  fm : FMState
  issued : List Nat
  next : Nat
  deriving DecidableEq

/-- `FieldManager.allocate_field` (runtime.py lines 224-302): match phase,
then pop the free queue; else resolve in-flight matches until a field
appears; else obtain a brand-new field from the region store (handle
`ts.next`), pushing `extra` further brand-new fields onto the free queue
(the shared-field-space path). Returns the allocated field and the new
state; the ghost `issued` list gains the returned field. -/
def allocateField (freq : Nat) (outs : List (List Nat)) (extra : Nat)
    (ts : TraceState) : Option (Nat × TraceState) :=
  let s := matchPhase freq ts.fm
  match s.pool.free with
  | f :: rest =>
    some (f, ⟨⟨⟨rest, s.pool.freed⟩, s.matchQueue, s.counter⟩, ts.issued ++ [f], ts.next⟩)
  | [] =>
    match resolveMatches s.matchQueue outs s.pool with
    | none => none
    | some (ms, st) =>
      match st.free with
      | f :: rest =>
        some (f, ⟨⟨⟨rest, st.freed⟩, ms, s.counter⟩, ts.issued ++ [f], ts.next⟩)
      | [] =>
        some (ts.next,
          ⟨⟨⟨(List.range extra).map (fun i => ts.next + 1 + i), st.freed⟩, ms, s.counter⟩,
           ts.issued ++ [ts.next], ts.next + 1 + extra⟩)

/-- A consumer returning a field through `free_field(..., ordered=False)`
(the default release path of `Runtime.free_field`). The trace is
well-formed only when the freed field is currently issued — freeing a
field twice, or one never allocated, is outside the allocator's contract
(`none`). -/
def freeFieldOp (f : Nat) (ts : TraceState) : Option TraceState :=
  if f ∈ ts.issued then
    some ⟨⟨⟨ts.fm.pool.free, ts.fm.pool.freed ++ [f]⟩, ts.fm.matchQueue, ts.fm.counter⟩,
          ts.issued.erase f, ts.next⟩
  else none

/-- One externally visible operation against a single `FieldManager`. -/
inductive PoolOp where
  | alloc (outs : List (List Nat)) (extra : Nat) : PoolOp
  | free (f : Nat) : PoolOp
  deriving DecidableEq

/-- Run a sequence of operations from a state. -/
def execTrace (freq : Nat) : List PoolOp → TraceState → Option TraceState
  | [], ts => some ts
  | PoolOp.alloc outs extra :: ops, ts =>
    match allocateField freq outs extra ts with
    | none => none
    | some (_, ts') => execTrace freq ops ts'
  | PoolOp.free f :: ops, ts =>
    match freeFieldOp f ts with
    | none => none
    | some ts' => execTrace freq ops ts'

/-- The state of a freshly constructed `FieldManager`. -/
def initTrace : TraceState := ⟨⟨⟨[], []⟩, [], 0⟩, [], 0⟩

/-! ## Claim theorem: the match-dispatch schedule -/

/-- C5: on a call to `allocate_field` the counter is incremented first,
and the pending-free list is wrapped in a new match, dispatched, enqueued
and the counter reset exactly when the incremented counter reaches the
match frequency — this is an iff: the queue grows by the submitted pending
list (even when that list is empty) precisely on every such Nth call, and
otherwise the only state change of the match phase is the incremented
counter. -/
theorem allocate_match_dispatch (freq : Nat) (s : FMState) :
    (((matchPhase freq s).matchQueue = s.matchQueue ++ [s.pool.freed] ∧
      (matchPhase freq s).pool.freed = [] ∧
      (matchPhase freq s).counter = 0) ↔ s.counter + 1 = freq) ∧
    (s.counter + 1 ≠ freq →
      matchPhase freq s = ⟨s.pool, s.matchQueue, s.counter + 1⟩) ∧
    (matchPhase freq s).pool.free = s.pool.free := by
  unfold matchPhase
  by_cases hc : s.counter + 1 = freq
  · rw [if_pos hc]
    exact ⟨⟨fun _ => hc, fun _ => ⟨rfl, rfl, rfl⟩⟩, fun hn => absurd hc hn, rfl⟩
  · rw [if_neg hc]
    refine ⟨⟨fun ⟨hm, _, _⟩ => ?_, fun h => absurd h hc⟩, fun _ => rfl, rfl⟩
    exfalso
    have := congrArg List.length hm
    simp at this

/-- Witness for C5: with frequency 2 and counter 1, the (empty) pending
list is dispatched and the counter resets; with counter 0 only the counter
moves. -/
theorem allocate_match_dispatch_witness :
    ((matchPhase 2 ⟨⟨[], []⟩, [], 1⟩).matchQueue = [] ++ [[]] ∧
     (matchPhase 2 ⟨⟨[], []⟩, [], 1⟩).pool.freed = [] ∧
     (matchPhase 2 ⟨⟨[], []⟩, [], 1⟩).counter = 0) ∧
    matchPhase 2 ⟨⟨[], [7]⟩, [], 0⟩ = ⟨⟨[], [7]⟩, [], 1⟩ :=
  ⟨(allocate_match_dispatch 2 ⟨⟨[], []⟩, [], 1⟩).1.2 rfl,
   (allocate_match_dispatch 2 ⟨⟨[], [7]⟩, [], 0⟩).2.1 (by decide)⟩

/-! ## Ownership accounting for the allocator

Each operation only moves fields between the ghost issued list, the two
pool lists, and the in-flight match payloads, or mints brand-new handles;
the multiset of all tracked fields is otherwise conserved. -/

/-- All fields a `FieldManager` currently holds. -/
def fmMS (s : FMState) : Multiset Nat :=
  (s.pool.free : Multiset Nat) + (s.pool.freed : Multiset Nat) +
    (s.matchQueue.join : Multiset Nat)

/-- All fields of the trace: issued to consumers or held by the manager. -/
def traceMS (ts : TraceState) : Multiset Nat :=
  (ts.issued : Multiset Nat) + fmMS ts.fm

/-- The allocator invariant: no field is tracked twice, and every tracked
field was minted before the freshness counter. -/
def TraceInv (ts : TraceState) : Prop :=
  (traceMS ts).Nodup ∧ ∀ x ∈ traceMS ts, x < ts.next

/-- Normalising a cons coercion into a singleton sum, for `abel`. -/
theorem coe_cons_ms {α : Type} (a : α) (l : List α) :
    ((a :: l : List α) : Multiset α) = {a} + (l : Multiset α) := by
  rw [Multiset.singleton_add]
  exact (Multiset.cons_coe a l).symm

theorem coe_nil_ms {α : Type} : ((([] : List α)) : Multiset α) = 0 := rfl

theorem matchPhase_ms (freq : Nat) (s : FMState) :
    fmMS (matchPhase freq s) = fmMS s := by
  unfold matchPhase fmMS
  by_cases hc : s.counter + 1 = freq
  · rw [if_pos hc]
    have hj : (s.matchQueue ++ [s.pool.freed]).join = s.matchQueue.join ++ s.pool.freed := by
      simp [List.join_append]
    dsimp only
    rw [hj]
    simp only [← Multiset.coe_add, coe_nil_ms]
    abel
  · rw [if_neg hc]

theorem liftSlots_eq {α : Type} :
    ∀ (l : List (Option α)) (v : List α), liftSlots l = some v → v = l.filterMap id := by
  intro l
  induction l with
  | nil => intro v h; cases h; rfl
  | cons s rest ih =>
    intro v h
    cases s with
    | none => cases h
    | some x =>
      unfold liftSlots at h
      rcases Option.map_eq_some'.1 h with ⟨r, hr, hv⟩
      subst hv
      rw [List.filterMap_cons]
      simp only [id]
      rw [← ih r hr]

theorem setSlot_ms {α : Type} (f : α) :
    ∀ (slots slots₂ : List (Option α)) (idx : Nat),
      setSlot slots idx f = some slots₂ →
      ((slots₂.filterMap id : List α) : Multiset α) = ((f :: slots.filterMap id : List α) : Multiset α) := by
  intro slots
  induction slots with
  | nil => intro slots₂ idx h; cases idx <;> cases h
  | cons s rest ih =>
    intro slots₂ idx h
    cases idx with
    | zero =>
      cases s with
      | none =>
        cases h
        simp [List.filterMap_cons]
      | some v => cases h
    | succ n =>
      unfold setSlot at h
      rcases Option.map_eq_some'.1 h with ⟨rest₂, hr, hv⟩
      subst hv
      have hih := ih rest₂ n hr
      cases s with
      | none =>
        simpa [List.filterMap_cons] using hih
      | some v =>
        simp only [List.filterMap_cons, id]
        rw [← Multiset.cons_coe, ← Multiset.cons_coe, ← Multiset.cons_coe, hih,
          ← Multiset.cons_coe]
        exact Multiset.cons_swap v f _

theorem fillLoop_ms {α : Type} [DecidableEq α] (output : List α) :
    ∀ (fs : List α) (slots : List (Option α)) (pend : List α)
      (slots' : List (Option α)) (pend' : List α),
      fillLoop output fs slots pend = some (slots', pend') →
      ((slots'.filterMap id : List α) : Multiset α) + (pend' : Multiset α) =
        ((slots.filterMap id : List α) : Multiset α) + (pend : Multiset α) + (fs : Multiset α) := by
  intro fs
  induction fs with
  | nil =>
    intro slots pend slots' pend' h
    unfold fillLoop at h
    rw [Option.some_inj] at h
    obtain ⟨h1, h2⟩ := Prod.mk.injEq .. ▸ h
    · subst h1; subst h2
      simp
  | cons f fs' ih =>
    intro slots pend slots' pend' h
    unfold fillLoop at h
    cases hfi : firstIdx output f with
    | none =>
      rw [hfi] at h
      dsimp only at h
      have := ih slots (pend ++ [f]) slots' pend' h
      rw [this]
      simp only [← Multiset.coe_add, coe_cons_ms, coe_nil_ms]
      abel
    | some idx =>
      rw [hfi] at h
      dsimp only at h
      cases hset : setSlot slots idx f with
      | none => rw [hset] at h; cases h
      | some slots₂ =>
        rw [hset] at h
        dsimp only at h
        have hih := ih slots₂ pend slots' pend' h
        have hms := setSlot_ms f slots slots₂ idx hset
        rw [hih, hms]
        simp only [← Multiset.coe_add, coe_cons_ms, coe_nil_ms]
        abel

theorem replicate_none_filterMap {α : Type} (n : Nat) :
    (List.replicate n (none : Option α)).filterMap id = [] := by
  induction n with
  | zero => rfl
  | succ k ih => rw [List.replicate_succ, List.filterMap_cons]; exact ih

theorem updateFreeFields_ms {α : Type} [DecidableEq α]
    (fields output : List α) (st st' : PoolState α)
    (h : updateFreeFields fields output st = some st') :
    (st'.free : Multiset α) + (st'.freed : Multiset α) =
      (st.free : Multiset α) + (st.freed : Multiset α) + (fields : Multiset α) := by
  unfold updateFreeFields at h
  by_cases hfe : fields.isEmpty
  · rw [if_pos hfe] at h
    rw [Option.some_inj] at h
    subst h
    have : fields = [] := by
      cases fields
      · rfl
      · simp at hfe
    subst this
    simp
  rw [if_neg hfe] at h
  by_cases hlen : fields.length < output.length
  · rw [if_pos hlen] at h; cases h
  rw [if_neg hlen] at h
  by_cases hoe : output.isEmpty
  · rw [if_pos hoe] at h
    rw [Option.some_inj] at h
    subst h
    simp only [← Multiset.coe_add]
    abel
  rw [if_neg hoe] at h
  cases hfl : fillLoop output fields (List.replicate output.length none) [] with
  | none => rw [hfl] at h; cases h
  | some sp =>
    rw [hfl] at h
    obtain ⟨slots, pend⟩ := sp
    dsimp only at h
    cases hls : liftSlots slots with
    | none => rw [hls] at h; cases h
    | some ordered =>
      rw [hls] at h
      dsimp only at h
      rw [Option.some_inj] at h
      subst h
      have hord : ordered = slots.filterMap id := liftSlots_eq slots ordered hls
      have hfm := fillLoop_ms output fields (List.replicate output.length none) []
        slots pend hfl
      rw [replicate_none_filterMap] at hfm
      rw [← hord] at hfm
      have hop : (ordered : Multiset α) + (pend : Multiset α) = (fields : Multiset α) := by
        rw [hfm]
        simp only [coe_nil_ms]
        abel
      simp only [← Multiset.coe_add]
      calc (st.free : Multiset α) + (ordered : Multiset α) +
            ((st.freed : Multiset α) + (pend : Multiset α))
          = (st.free : Multiset α) + (st.freed : Multiset α) +
            ((ordered : Multiset α) + (pend : Multiset α)) := by abel
        _ = (st.free : Multiset α) + (st.freed : Multiset α) + (fields : Multiset α) := by
            rw [hop]

theorem resolveMatches_ms :
    ∀ (ms outs : List (List Nat)) (st : PoolState Nat)
      (ms' : List (List Nat)) (st' : PoolState Nat),
      resolveMatches ms outs st = some (ms', st') →
      (st'.free : Multiset Nat) + (st'.freed : Multiset Nat) + (ms'.join : Multiset Nat) =
        (st.free : Multiset Nat) + (st.freed : Multiset Nat) + (ms.join : Multiset Nat) := by
  intro ms
  induction ms with
  | nil =>
    intro outs st ms' st' h
    unfold resolveMatches at h
    rw [Option.some_inj] at h
    rw [Prod.mk.injEq] at h
    obtain ⟨h1, h2⟩ := h
    subst h1
    subst h2
    rfl
  | cons m ms0 ih =>
    intro outs st ms' st' h
    unfold resolveMatches at h
    cases hupd : updateFreeFields m (outs.headD []) st with
    | none => rw [hupd] at h; cases h
    | some st₂ =>
      rw [hupd] at h
      dsimp only at h
      have hms := updateFreeFields_ms m (outs.headD []) st st₂ hupd
      by_cases hfe : st₂.free.isEmpty
      · rw [if_pos hfe] at h
        have hih := ih outs.tail st₂ ms' st' h
        rw [hih, hms]
        simp only [List.join_cons, ← Multiset.coe_add]
        abel
      · rw [if_neg hfe] at h
        rw [Option.some_inj] at h
        rw [Prod.mk.injEq] at h
        obtain ⟨h1, h2⟩ := h
        subst h1
        subst h2
        rw [hms]
        simp only [List.join_cons, ← Multiset.coe_add]
        abel

theorem initTrace_inv : TraceInv initTrace := by
  constructor
  · show (traceMS initTrace).Nodup
    have h0 : traceMS initTrace = 0 := rfl
    rw [h0]
    exact Multiset.nodup_zero
  · intro x hx
    have h0 : traceMS initTrace = 0 := rfl
    rw [h0] at hx
    simp at hx

theorem freeFieldOp_inv (f : Nat) (ts ts' : TraceState)
    (hinv : TraceInv ts) (h : freeFieldOp f ts = some ts') : TraceInv ts' := by
  unfold freeFieldOp at h
  by_cases hf : f ∈ ts.issued
  · rw [if_pos hf] at h
    rw [Option.some_inj] at h
    subst h
    have hperm : (ts.issued : Multiset Nat) = {f} + (ts.issued.erase f : Multiset Nat) := by
      rw [Multiset.singleton_add, Multiset.cons_coe, Multiset.coe_eq_coe]
      exact List.perm_cons_erase hf
    have hMS : traceMS ⟨⟨⟨ts.fm.pool.free, ts.fm.pool.freed ++ [f]⟩,
        ts.fm.matchQueue, ts.fm.counter⟩, ts.issued.erase f, ts.next⟩ = traceMS ts := by
      unfold traceMS fmMS
      dsimp only
      rw [hperm]
      simp only [← Multiset.coe_add, coe_cons_ms, coe_nil_ms]
      abel
    constructor
    · rw [hMS]
      exact hinv.1
    · intro x hx
      rw [hMS] at hx
      exact hinv.2 x hx
  · rw [if_neg hf] at h
    cases h

/-- `allocate_field` returns a field that is not currently issued, records
it as issued, and preserves the ownership invariant. -/
theorem allocateField_spec (freq : Nat) (outs : List (List Nat)) (extra : Nat)
    (ts : TraceState) (f : Nat) (ts' : TraceState)
    (hinv : TraceInv ts)
    (h : allocateField freq outs extra ts = some (f, ts')) :
    f ∉ ts.issued ∧ ts'.issued = ts.issued ++ [f] ∧ TraceInv ts' := by
  have hphase := matchPhase_ms freq ts.fm
  have hnd0 := hinv.1
  unfold traceMS at hnd0
  obtain ⟨_, _, hdisj⟩ := Multiset.nodup_add.1 hnd0
  unfold allocateField at h
  dsimp only at h
  cases hfr : (matchPhase freq ts.fm).pool.free with
  | cons f0 rest =>
    rw [hfr] at h
    dsimp only at h
    rw [Option.some_inj, Prod.mk.injEq] at h
    obtain ⟨hf, hts⟩ := h
    subst hf
    subst hts
    have hf0mem : f0 ∈ fmMS ts.fm := by
      rw [← hphase]
      unfold fmMS
      rw [hfr]
      refine Multiset.mem_add.2 (Or.inl (Multiset.mem_add.2 (Or.inl ?_)))
      rw [Multiset.mem_coe]
      exact List.mem_cons_self f0 rest
    have hfni : f0 ∉ ts.issued := by
      intro hc
      exact Multiset.disjoint_left.1 hdisj (Multiset.mem_coe.2 hc) hf0mem
    have hMS : traceMS ⟨⟨⟨rest, (matchPhase freq ts.fm).pool.freed⟩,
        (matchPhase freq ts.fm).matchQueue, (matchPhase freq ts.fm).counter⟩,
        ts.issued ++ [f0], ts.next⟩ = traceMS ts := by
      unfold traceMS
      rw [← hphase]
      dsimp only [fmMS]
      rw [hfr]
      simp only [← Multiset.coe_add, coe_cons_ms, coe_nil_ms]
      abel
    refine ⟨hfni, rfl, ?_, ?_⟩
    · rw [hMS]
      exact hinv.1
    · intro x hx
      rw [hMS] at hx
      exact hinv.2 x hx
  | nil =>
    rw [hfr] at h
    dsimp only at h
    cases hres : resolveMatches (matchPhase freq ts.fm).matchQueue outs
        (matchPhase freq ts.fm).pool with
    | none => rw [hres] at h; cases h
    | some pair =>
      rw [hres] at h
      obtain ⟨ms', st⟩ := pair
      dsimp only at h
      have hrms := resolveMatches_ms (matchPhase freq ts.fm).matchQueue outs
        (matchPhase freq ts.fm).pool ms' st hres
      have hmp : fmMS (matchPhase freq ts.fm) =
          (st.free : Multiset Nat) + (st.freed : Multiset Nat) +
            (ms'.join : Multiset Nat) := by
        unfold fmMS
        rw [← hrms]
      cases hsf : st.free with
      | cons f0 rest =>
        rw [hsf] at h
        dsimp only at h
        rw [Option.some_inj, Prod.mk.injEq] at h
        obtain ⟨hf, hts⟩ := h
        subst hf
        subst hts
        have hf0mem : f0 ∈ fmMS ts.fm := by
          rw [← hphase, hmp, hsf]
          refine Multiset.mem_add.2 (Or.inl (Multiset.mem_add.2 (Or.inl ?_)))
          rw [Multiset.mem_coe]
          exact List.mem_cons_self f0 rest
        have hfni : f0 ∉ ts.issued := by
          intro hc
          exact Multiset.disjoint_left.1 hdisj (Multiset.mem_coe.2 hc) hf0mem
        have hMS : traceMS ⟨⟨⟨rest, st.freed⟩, ms',
            (matchPhase freq ts.fm).counter⟩, ts.issued ++ [f0], ts.next⟩
            = traceMS ts := by
          unfold traceMS
          rw [← hphase, hmp, hsf]
          dsimp only [fmMS]
          simp only [← Multiset.coe_add, coe_cons_ms, coe_nil_ms]
          abel
        refine ⟨hfni, rfl, ?_, ?_⟩
        · rw [hMS]
          exact hinv.1
        · intro x hx
          rw [hMS] at hx
          exact hinv.2 x hx
      | nil =>
        rw [hsf] at h
        dsimp only at h
        rw [Option.some_inj, Prod.mk.injEq] at h
        obtain ⟨hf, hts⟩ := h
        subst hf
        subst hts
        have hold : fmMS ts.fm =
            (st.freed : Multiset Nat) + (ms'.join : Multiset Nat) := by
          rw [← hphase, hmp, hsf]
          simp only [coe_nil_ms]
          abel
        have hMS : traceMS ⟨⟨⟨(List.range extra).map (fun i => ts.next + 1 + i),
            st.freed⟩, ms', (matchPhase freq ts.fm).counter⟩,
            ts.issued ++ [ts.next], ts.next + 1 + extra⟩ =
            traceMS ts + ({ts.next} +
              ((List.range extra).map (fun i => ts.next + 1 + i) : Multiset Nat)) := by
          unfold traceMS
      /- rewrite both `fmMS` occurrences, then pure commutative reasoning -/
          rw [hold]
          dsimp only [fmMS]
          simp only [← Multiset.coe_add, coe_cons_ms, coe_nil_ms]
          abel
        have hbound : ∀ x ∈ traceMS ts, x < ts.next := hinv.2
        have hnotiss : ts.next ∉ ts.issued := by
          intro hc
          have hmem : ts.next ∈ traceMS ts := by
            unfold traceMS
            exact Multiset.mem_add.2 (Or.inl (Multiset.mem_coe.2 hc))
          exact absurd (hbound _ hmem) (by omega)
        have hinj : Function.Injective (fun i => ts.next + 1 + i) := by
          intro a b hab
          have hab2 : ts.next + 1 + a = ts.next + 1 + b := hab
          omega
        have hextras : (((List.range extra).map
            (fun i => ts.next + 1 + i) : List Nat) : Multiset Nat).Nodup := by
          rw [Multiset.coe_nodup]
          exact (List.nodup_range extra).map hinj
        have hmemextras : ∀ a : Nat, a ∈ (((List.range extra).map
            (fun i => ts.next + 1 + i) : List Nat) : Multiset Nat) →
            ts.next + 1 ≤ a ∧ a < ts.next + 1 + extra := by
          intro a ha
          rw [Multiset.mem_coe] at ha
          obtain ⟨i, hi, hia⟩ := List.mem_map.1 ha
          have := List.mem_range.1 hi
          omega
        refine ⟨hnotiss, rfl, ?_, ?_⟩
        · rw [hMS]
          refine Multiset.nodup_add.2 ⟨hinv.1, ?_, ?_⟩
          · refine Multiset.nodup_add.2 ⟨Multiset.nodup_singleton _, hextras, ?_⟩
            rw [Multiset.disjoint_left]
            intro a ha hb
            rw [Multiset.mem_singleton] at ha
            subst ha
            have := hmemextras _ hb
            omega
          · rw [Multiset.disjoint_left]
            intro a ha hb
            have hlt := hbound a ha
            rcases Multiset.mem_add.1 hb with h1 | h1
            · rw [Multiset.mem_singleton] at h1
              omega
            · have := hmemextras _ h1
              omega
        · intro x hx
          show x < ts.next + 1 + extra
          rw [hMS] at hx
          rcases Multiset.mem_add.1 hx with h1 | h1
          · have := hbound x h1
            omega
          · rcases Multiset.mem_add.1 h1 with h2 | h2
            · rw [Multiset.mem_singleton] at h2
              omega
            · have := hmemextras _ h2
              omega

theorem execTrace_inv (freq : Nat) :
    ∀ (ops : List PoolOp) (ts ts' : TraceState),
      TraceInv ts → execTrace freq ops ts = some ts' → TraceInv ts' := by
  intro ops
  induction ops with
  | nil =>
    intro ts ts' hinv h
    unfold execTrace at h
    rw [Option.some_inj] at h
    subst h
    exact hinv
  | cons op rest ih =>
    intro ts ts' hinv h
    cases op with
    | alloc outs extra =>
      rw [show execTrace freq (PoolOp.alloc outs extra :: rest) ts =
          (match allocateField freq outs extra ts with
           | none => none
           | some (_, ts₂) => execTrace freq rest ts₂) from rfl] at h
      cases halloc : allocateField freq outs extra ts with
      | none => rw [halloc] at h; cases h
      | some pair =>
        rw [halloc] at h
        obtain ⟨g, ts₂⟩ := pair
        dsimp only at h
        exact ih ts₂ ts'
          (allocateField_spec freq outs extra ts g ts₂ hinv halloc).2.2 h
    | free f =>
      rw [show execTrace freq (PoolOp.free f :: rest) ts =
          (match freeFieldOp f ts with
           | none => none
           | some ts₂ => execTrace freq rest ts₂) from rfl] at h
      cases hfree : freeFieldOp f ts with
      | none => rw [hfree] at h; cases h
      | some ts₂ =>
        rw [hfree] at h
        dsimp only at h
        exact ih ts₂ ts' (freeFieldOp_inv f ts ts₂ hinv hfree) h

/-! ## Claim theorem: no double issue -/

/-- C1: along every trace of `allocate_field`/`free_field` operations on a
single `FieldManager` starting from a fresh manager (with each `free`
returning a currently issued field, and for every outcome of the consensus
matches and the region store), the next `allocate_field` never returns a
field that is currently issued — a field handed to a consumer cannot be
handed out again before it is freed — and every currently issued field is
absent from both the local free queue and the unordered pending list. -/
theorem allocate_no_double_issue (freq : Nat) (ops : List PoolOp)
    (outs : List (List Nat)) (extra : Nat)
    (ts : TraceState) (f : Nat) (ts' : TraceState)
    (hexec : execTrace freq ops initTrace = some ts)
    (halloc : allocateField freq outs extra ts = some (f, ts')) :
    f ∉ ts.issued ∧
      ∀ g ∈ ts.issued, g ∉ ts.fm.pool.free ∧ g ∉ ts.fm.pool.freed := by
  have hinv : TraceInv ts := execTrace_inv freq ops initTrace ts initTrace_inv hexec
  refine ⟨(allocateField_spec freq outs extra ts f ts' hinv halloc).1, ?_⟩
  have hnd := hinv.1
  unfold traceMS at hnd
  obtain ⟨_, _, hdisj⟩ := Multiset.nodup_add.1 hnd
  intro g hg
  have hnot := Multiset.disjoint_left.1 hdisj (Multiset.mem_coe.2 hg)
  constructor
  · intro hc
    apply hnot
    unfold fmMS
    exact Multiset.mem_add.2 (Or.inl (Multiset.mem_add.2 (Or.inl
      (Multiset.mem_coe.2 hc))))
  · intro hc
    apply hnot
    unfold fmMS
    exact Multiset.mem_add.2 (Or.inl (Multiset.mem_add.2 (Or.inr
      (Multiset.mem_coe.2 hc))))

/-- Witness for C1: allocate once (field 0 issued), then a second allocate
that triggers an (empty) consensus round and returns the brand-new field
1, which is not the issued field 0; field 0 is on neither pool list. -/
theorem allocate_no_double_issue_witness :
    execTrace 2 [PoolOp.alloc [] 0] initTrace = some ⟨⟨⟨[], []⟩, [], 1⟩, [0], 1⟩ ∧
    allocateField 2 [[]] 0 ⟨⟨⟨[], []⟩, [], 1⟩, [0], 1⟩ =
      some (1, ⟨⟨⟨[], []⟩, [], 0⟩, [0, 1], 2⟩) ∧
    ((1 : Nat) ∉ ([0] : List Nat) ∧
      ∀ g ∈ ([0] : List Nat), g ∉ ([] : List Nat) ∧ g ∉ ([] : List Nat)) := by
  refine ⟨by decide, by decide, ?_⟩
  exact allocate_no_double_issue 2 [PoolOp.alloc [] 0] [[]] 0
    ⟨⟨⟨[], []⟩, [], 1⟩, [0], 1⟩ 1 ⟨⟨⟨[], []⟩, [], 0⟩, [0, 1], 2⟩
    (by decide) (by decide)

end LegateCore
